import Mathlib

/-!
A shallow embedding of the `mu` language implementation (the `python-lang-mu`
repository): the position/span tracker (`mu/input.py`), the syntax-tree data
model (`mu/types.py`), the recursive-descent parser (`mu/parser.py`) and the
evaluator (`mu/exec.py`).

Conventions of the embedding:
* Python strings are `List Char`; Python string slicing `s[i:j]` on
  already-clamped natural offsets is `(s.drop i).take (j - i)`.
* Python exceptions are an explicit `Err` inductive; fallible code returns
  `Except Err`.
* Python's unbounded recursion is embedded with an explicit fuel parameter;
  running out of fuel yields the distinguished error `Err.fuel` (the Python
  analogue is `RecursionError`, which is an `Exception` like the others).
* Host-side behaviour the interpreter merely calls into (the bodies of
  registered Python callables, `importlib` resolution for `py.` atoms and
  Python's `str()` on non-string objects) is abstracted as a `Host` record
  passed to the evaluator; everything the interpreter itself does is embedded
  from the source.
-/

namespace Mu

/-- Python's end-of-stream sentinel `_Input.EOS = '\0'` (`mu/input.py`). -/
def EOSc : Char := Char.ofNat 0

/-- Model of Python's `str.isspace` for single characters, covering the ASCII
control whitespace, `\x1c`-`\x1f`, and the Unicode space separators that
`str.isspace` accepts. -/
def pyIsSpace (c : Char) : Bool :=
  [' ', '\t', '\n', '\r', Char.ofNat 0x0b, Char.ofNat 0x0c,
   Char.ofNat 0x1c, Char.ofNat 0x1d, Char.ofNat 0x1e, Char.ofNat 0x1f,
   Char.ofNat 0x85, Char.ofNat 0xa0, Char.ofNat 0x1680,
   Char.ofNat 0x2000, Char.ofNat 0x2001, Char.ofNat 0x2002, Char.ofNat 0x2003,
   Char.ofNat 0x2004, Char.ofNat 0x2005, Char.ofNat 0x2006, Char.ofNat 0x2007,
   Char.ofNat 0x2008, Char.ofNat 0x2009, Char.ofNat 0x200a,
   Char.ofNat 0x2028, Char.ofNat 0x2029, Char.ofNat 0x202f,
   Char.ofNat 0x205f, Char.ofNat 0x3000].contains c

/-- Model of Python's `str.isalnum` for single characters (ASCII letters and
digits; the tag of a raw string in practice). -/
def pyIsAlnum (c : Char) : Bool := c.isAlpha || c.isDigit

/-- The exception classes the interpreter can raise, tagged by class;
messages follow the source but without Python's f-string interpolation of
dynamic values. `fuel` stands for exhaustion of the embedding's recursion
fuel (Python's `RecursionError`). -/
inductive Err where
  | muParser (msg : String)
  | muName (msg : String)
  | typeErr (msg : String)
  | valueErr (msg : String)
  | assertErr (msg : String)
  | indexErr
  | fuel
deriving DecidableEq, Repr

/-- `Pos` from `mu/input.py`: 1-based line/column, 0-based character index.
Fields are `Int` because `backward_via` decrements without a lower bound. -/
structure Pos where
  line : Int
  col : Int
  index : Int
deriving DecidableEq, Repr

/-- `Pos.forward_via`: advance one character, tracking line/column. -/
def Pos.forward_via (p : Pos) (c : Char) : Pos :=
  if c = '\n' then ⟨p.line + 1, 1, p.index + 1⟩
  else ⟨p.line, p.col + 1, p.index + 1⟩

/-- `Pos.backward_via`: retreat one character; raises `ValueError` on a
newline because the previous column width is not recorded. -/
def Pos.backward_via (p : Pos) (c : Char) : Except Err Pos :=
  if c = '\n' then .error (.valueErr "Cannot move backwards over a newline")
  else .ok ⟨p.line, p.col - 1, p.index - 1⟩

/-- `Span` from `mu/input.py`: a start and end position plus the raw text in
between. -/
structure Span where
  start : Pos
  endP : Pos
  raw : List Char
deriving DecidableEq, Repr

/-- The `Span.__post_init__` assertion: `len(raw) == end.index - start.index`. -/
def Span.wf (s : Span) : Prop := (s.raw.length : Int) = s.endP.index - s.start.index

instance (s : Span) : Decidable s.wf := by unfold Span.wf; infer_instance

/-- Normalisation of one Python slice offset against a length (steps 2 and 3
of `Span.__getitem__`): a negative offset counts from the end, and the result
is clamped into `[0, length]`. -/
def pySliceNorm (length : Int) (off : Int) : Int :=
  let v := if off < 0 then length + off else off
  if v < 0 then 0 else if v > length then length else v

/-- `Span.__getitem__` (sub-span extraction by a Python slice `key.start` /
`key.stop`, `none` standing for an omitted bound). Negative offsets count from
the end, out-of-range offsets are clamped; the new start walks forward over
the dropped head of `raw`, the new end walks backward over the dropped tail
(which raises on a newline). Constructing the result re-checks the
`__post_init__` length assertion. -/
def Span.slice (s : Span) (kstart kstop : Option Int) : Except Err Span := do
  let length : Int := s.raw.length
  let soN : Nat := (pySliceNorm length (kstart.getD 0)).toNat
  let eoN : Nat := (pySliceNorm length (kstop.getD length)).toNat
  let newStart : Pos := (s.raw.take soN).foldl Pos.forward_via s.start
  let newEnd : Pos ← (s.raw.drop eoN).reverse.foldlM Pos.backward_via s.endP
  let newRaw : List Char := (s.raw.drop soN).take (eoN - soN)
  if (newRaw.length : Int) = newEnd.index - newStart.index then
    pure ⟨newStart, newEnd, newRaw⟩
  else
    .error (.assertErr "Span length invariant")

/-- `Span.__add__`: merge two spans when contiguous
(`self.end.index == other.start.index`), else raise `ValueError`; the result
re-checks the `__post_init__` length assertion. -/
def Span.add (s other : Span) : Except Err Span :=
  if s.endP.index ≠ other.start.index then
    .error (.valueErr "Cannot add spans that are not contiguous")
  else if ((s.raw ++ other.raw).length : Int) = other.endP.index - s.start.index then
    .ok ⟨s.start, other.endP, s.raw ++ other.raw⟩
  else
    .error (.assertErr "Span length invariant")

/-- `TokenSpans` from `mu/types.py`: a token's own text and the trailing
whitespace/comment trivia that followed it. -/
structure TokenSpans where
  token : Option Span := none
  space : Option Span := none
deriving DecidableEq, Repr

/-- `TokenSpans.__str__`: token raw text then trailing trivia raw text. -/
def TokenSpans.render (ts : TokenSpans) : List Char :=
  (ts.token.map Span.raw).getD [] ++ (ts.space.map Span.raw).getD []

mutual
/-- The syntax-tree node variants of `mu/types.py` (`SAtom`, `SStr`, `SReal`,
`SInt`, `SRational`, `SGroup`, `SSeq`, `SMap`), with the optional trivia each
carries. `SMap`'s brackets are `TokenSpans` like the others: that is what the
parser actually stores in them (the `Optional[Span]` annotations in
`mu/types.py` are not enforced at runtime). -/
inductive SExpr where
  | atom (value : List Char) (span : Option TokenSpans)
  | str (value : List Char) (span : Option TokenSpans)
  | real (value : List Char) (span : Option TokenSpans)
  | int (value : Int) (span : Option TokenSpans)
  | rational (value : Int × Int) (span : Option TokenSpans)
  | group (values : List SExpr) (open_bracket : Option TokenSpans)
      (separators : Option (List TokenSpans)) (close_bracket : Option TokenSpans)
  | seq (values : List SExpr) (open_bracket : Option TokenSpans)
      (separators : Option (List TokenSpans)) (close_bracket : Option TokenSpans)
  | map (values : List SMapField) (open_bracket : Option TokenSpans)
      (separators : Option (List TokenSpans)) (close_bracket : Option TokenSpans)

/-- `SMapField` from `mu/types.py`: one key/value pair of a map literal with
its separator (colon) trivia. -/
inductive SMapField where
  | mk (key : SExpr) (value : SExpr) (separator : Option TokenSpans)
end

/-- The key of a map field. -/
def SMapField.key : SMapField → SExpr
  | .mk k _ _ => k

/-- The value of a map field. -/
def SMapField.value : SMapField → SExpr
  | .mk _ v _ => v

/-- The separator trivia of a map field. -/
def SMapField.separator : SMapField → Option TokenSpans
  | .mk _ _ s => s

mutual
/-- Structural equality of nodes, as Python's generated dataclass `__eq__`
compares them (all fields, spans included; different classes are unequal). -/
def SExpr.beq : SExpr → SExpr → Bool
  | .atom v1 s1, .atom v2 s2 => v1 = v2 && s1 = s2
  | .str v1 s1, .str v2 s2 => v1 = v2 && s1 = s2
  | .real v1 s1, .real v2 s2 => v1 = v2 && s1 = s2
  | .int v1 s1, .int v2 s2 => v1 = v2 && s1 = s2
  | .rational v1 s1, .rational v2 s2 => v1 = v2 && s1 = s2
  | .group v1 o1 s1 c1, .group v2 o2 s2 c2 =>
      SExpr.derbeqList v1 v2 && o1 = o2 && s1 = s2 && c1 = c2
  | .seq v1 o1 s1 c1, .seq v2 o2 s2 c2 =>
      SExpr.derbeqList v1 v2 && o1 = o2 && s1 = s2 && c1 = c2
  | .map v1 o1 s1 c1, .map v2 o2 s2 c2 =>
      SExpr.derbeqFields v1 v2 && o1 = o2 && s1 = s2 && c1 = c2
  | _, _ => false

/-- Elementwise `SExpr.beq` on child lists. -/
def SExpr.derbeqList : List SExpr → List SExpr → Bool
  | [], [] => true
  | x :: xs, y :: ys => SExpr.beq x y && SExpr.derbeqList xs ys
  | _, _ => false

/-- Elementwise equality on map fields. -/
def SExpr.derbeqFields : List SMapField → List SMapField → Bool
  | [], [] => true
  | .mk k1 v1 s1 :: xs, .mk k2 v2 s2 :: ys =>
      SExpr.beq k1 k2 && SExpr.beq v1 v2 && s1 = s2 && SExpr.derbeqFields xs ys
  | _, _ => false
end

mutual
/-- `SExpr.drop_spans` from `mu/types.py`: the trivia-stripped counterpart of
a node. -/
def SExpr.drop_spans : SExpr → SExpr
  | .atom value _ => .atom value none
  | .str value _ => .str value none
  | .real value _ => .real value none
  | .int value _ => .int value none
  | .rational value _ => .rational value none
  | .group values _ _ _ => .group (SExpr.dropSpansList values) none none none
  | .seq values _ _ _ => .seq (SExpr.dropSpansList values) none none none
  | .map values _ _ _ => .map (SExpr.dropSpansFields values) none none none

/-- `drop_spans` mapped over children. -/
def SExpr.dropSpansList : List SExpr → List SExpr
  | [] => []
  | x :: xs => x.drop_spans :: SExpr.dropSpansList xs

/-- `drop_spans` mapped over map fields (separator trivia is dropped). -/
def SExpr.dropSpansFields : List SMapField → List SMapField
  | [] => []
  | .mk k v _ :: xs => .mk k.drop_spans v.drop_spans none :: SExpr.dropSpansFields xs
end

/-- Rendering of an optional `TokenSpans` (absent trivia renders as nothing). -/
def optTs (o : Option TokenSpans) : List Char :=
  (o.map TokenSpans.render).getD []

mutual
/-- The `__str__` methods of the node classes: a node with trivia renders its
token text followed by its trailing trivia, recursively and in order; a node
without trivia renders its value. Bracketed nodes index `separators[i]` for
every child `i`, which in Python raises `IndexError` when the separator list
is too short; rendering therefore returns `none` in that case. -/
def SExpr.render : SExpr → Option (List Char)
  | .atom value span =>
      some (match span with | some ts => ts.render | none => value)
  | .str value span =>
      some (match span with | some ts => ts.render | none => value)
  | .real value span =>
      some (match span with | some ts => ts.render | none => value)
  | .int value span =>
      some (match span with | some ts => ts.render | none => (toString value).data)
  | .rational value span =>
      some (match span with
            | some ts => ts.render
            | none => (toString value.1).data ++ ['/'] ++ (toString value.2).data)
  | .group values ob seps cb => do
      pure (optTs ob ++ (← SExpr.renderItems values seps) ++ optTs cb)
  | .seq values ob seps cb => do
      pure (optTs ob ++ (← SExpr.renderItems values seps) ++ optTs cb)
  | .map values ob seps cb => do
      pure (optTs ob ++ (← SExpr.renderFields values seps) ++ optTs cb)

/-- The child-rendering loop of `SGroup.__str__` / `SSeq.__str__`: each child
followed, when a separator list is present, by `separators[i]`. -/
def SExpr.renderItems : List SExpr → Option (List TokenSpans) → Option (List Char)
  | [], _ => some []
  | v :: vs, none => do pure ((← v.render) ++ (← SExpr.renderItems vs none))
  | _ :: _, some [] => none
  | v :: vs, some (t :: ts) => do
      pure ((← v.render) ++ t.render ++ (← SExpr.renderItems vs (some ts)))

/-- `SMapField.__str__`: key, separator trivia, value. -/
def SMapField.render : SMapField → Option (List Char)
  | .mk k v sep => do pure ((← k.render) ++ optTs sep ++ (← v.render))

/-- The field-rendering loop of `SMap.__str__`. -/
def SExpr.renderFields : List SMapField → Option (List TokenSpans) → Option (List Char)
  | [], _ => some []
  | f :: fs, none => do pure ((← f.render) ++ (← SExpr.renderFields fs none))
  | _ :: _, some [] => none
  | f :: fs, some (t :: ts) => do
      pure ((← f.render) ++ t.render ++ (← SExpr.renderFields fs (some ts)))
end

/-- `SDoc` from `mu/types.py`: the parse root, ordered top-level nodes plus
the document's leading trivia. -/
structure SDoc where
  exprs : List SExpr
  leading_space : Option Span := none

/-- `SDoc.__str__`: leading trivia then every top-level node in order. -/
def SDoc.render (d : SDoc) : Option (List Char) := do
  let rs ← d.exprs.mapM SExpr.render
  pure ((d.leading_space.map Span.raw).getD [] ++ rs.flatten)

/-- `SDoc.drop_spans`: strip trivia from the nodes (the document's own
`leading_space` is kept, as in the source). -/
def SDoc.drop_spans (d : SDoc) : SDoc :=
  ⟨SExpr.dropSpansList d.exprs, d.leading_space⟩

/-- Python slice `t[i:j]` on already-normalised natural offsets. -/
def subT (t : List Char) (i j : Nat) : List Char := (t.drop i).take (j - i)

/-- The `_Input` cursor of `mu/input.py`: the input text, the running
index/line/column and the mark set by the last `capture`. The stored
`current` field of the Python class is the derived function `Inp.current`
below (the class keeps the two in sync). -/
structure Inp where
  text : List Char
  index : Nat
  line : Int
  col : Int
  markIndex : Nat
  markLine : Int
  markCol : Int
deriving Repr

/-- `_Input.__init__`. -/
def Inp.ofText (t : List Char) : Inp := ⟨t, 0, 1, 1, 0, 1, 1⟩

/-- The `current` character: `EOS` (`'\0'`) once the index is past the end,
otherwise the character at the index — which may itself be a literal `'\0'`,
indistinguishable from end of stream. -/
def Inp.current (s : Inp) : Char :=
  if h : s.index < s.text.length then s.text.get ⟨s.index, h⟩ else EOSc

/-- `_Input.position`. -/
def Inp.position (s : Inp) : Pos := ⟨s.line, s.col, (s.index : Int)⟩

/-- `_Input.next`: advance one character, updating line/column (column resets
on consuming a newline); a no-op once exhausted. -/
def Inp.next (s : Inp) : Inp :=
  if s.index < s.text.length then
    if s.current = '\n' then
      { s with line := s.line + 1, col := 1, index := s.index + 1 }
    else
      { s with col := s.col + 1, index := s.index + 1 }
  else s

/-- `_Input.capture`: the span from the mark to the current position, and the
cursor re-marked at the current position. (The `Span` length assertion holds
for every span this produces, since the mark never passes the index.) -/
def Inp.capture (s : Inp) : Span × Inp :=
  (⟨⟨s.markLine, s.markCol, (s.markIndex : Int)⟩, s.position, subT s.text s.markIndex s.index⟩,
   { s with markIndex := s.index, markLine := s.line, markCol := s.col })

/-- The inner comment loop of `_skip_whitespace`: consume to end of line,
then the newline itself if the line ended in one. -/
def skipLine : Nat → Inp → Except Err Inp
  | 0, _ => .error .fuel
  | f+1, s =>
    if s.current = '\n' ∨ s.current = EOSc then
      if s.current ≠ EOSc then .ok s.next else .ok s
    else skipLine f s.next

/-- `_skip_whitespace`: skip whitespace and `;`-to-end-of-line comments, then
capture the skipped stretch as a trivia span. -/
def skipWhitespace : Nat → Inp → Except Err (Span × Inp)
  | 0, _ => .error .fuel
  | f+1, s =>
    if s.current = EOSc then .ok s.capture
    else if pyIsSpace s.current then skipWhitespace f s.next
    else if s.current = ';' then do
      let s1 ← skipLine f s
      skipWhitespace f s1
    else .ok s.capture

/-- A character that terminates an atom: the excluded delimiters (including
the EOS sentinel) or whitespace — the negation of `_parse_atom`'s loop
condition. -/
def atomBoundary (c : Char) : Bool :=
  [EOSc, '(', ')', '[', ']', ',', '\x7b', '\x7d', '"'].contains c || pyIsSpace c

/-- The accumulation loop of `_parse_atom`. -/
def parseAtomLoop : Nat → Inp → List Char → Except Err (List Char × Inp)
  | 0, _, _ => .error .fuel
  | f+1, s, acc =>
    if atomBoundary s.current then .ok (acc, s)
    else parseAtomLoop f s.next (acc ++ [s.current])

/-- `_parse_atom`: its two opening `assert`s reject a delimiter, whitespace
or end of stream; then the accumulation loop, token capture and trailing
trivia. -/
def parseAtom : Nat → Inp → Except Err (SExpr × Inp)
  | 0, _ => .error .fuel
  | f+1, s =>
    if atomBoundary s.current then .error (.assertErr "Unexpected character")
    else do
      let (value, s) ← parseAtomLoop f s []
      let (tok, s) := s.capture
      let (sp, s) ← skipWhitespace f s
      .ok (.atom value (some ⟨some tok, some sp⟩), s)

/-- The content loop of `_parse_string`: plain characters, the escape table
`\n \t \r \0 \\ \"` (any other escape is a parse error), unexpected end of
input is a parse error; stops at the closing quote. -/
def parseStringLoop : Nat → Inp → List Char → Except Err (List Char × Inp)
  | 0, _, _ => .error .fuel
  | f+1, s, acc =>
    if s.current = '"' then .ok (acc, s)
    else if s.current = EOSc then .error (.muParser "Unexpected end of input")
    else if s.current = '\\' then
      let s1 := s.next
      if s1.current = 'n' then parseStringLoop f s1.next (acc ++ ['\n'])
      else if s1.current = 't' then parseStringLoop f s1.next (acc ++ ['\t'])
      else if s1.current = 'r' then parseStringLoop f s1.next (acc ++ ['\r'])
      else if s1.current = '0' then parseStringLoop f s1.next (acc ++ [EOSc])
      else if s1.current = '\\' then parseStringLoop f s1.next (acc ++ ['\\'])
      else if s1.current = '"' then parseStringLoop f s1.next (acc ++ ['"'])
      else .error (.muParser "Invalid escape sequence")
    else parseStringLoop f s.next (acc ++ [s.current])

/-- `_parse_string`: opening quote, content loop, closing quote, token
capture and trailing trivia. -/
def parseString : Nat → Inp → Except Err (SExpr × Inp)
  | 0, _ => .error .fuel
  | f+1, s =>
    if s.current ≠ '"' then .error (.assertErr "Expected opening quote")
    else do
      let (value, s) ← parseStringLoop f s.next []
      let s := s.next
      let (tok, s) := s.capture
      let (sp, s) ← skipWhitespace f s
      .ok (.str value (some ⟨some tok, some sp⟩), s)

/-- The tag-accumulation loop of `_parse_raw_string` (`while isalnum`). -/
def parseTagLoop : Nat → Inp → List Char → Except Err (List Char × Inp)
  | 0, _, _ => .error .fuel
  | f+1, s, acc =>
    if pyIsAlnum s.current then parseTagLoop f s.next (acc ++ [s.current])
    else .ok (acc, s)

/-- The inner terminator-matching loop of `_parse_raw_string`: consume input
characters while they match successive tag characters, returning the cursor
and how many matched (the full tag length on a complete match). -/
def tagScan : Inp → List Char → Inp × Nat
  | s, [] => (s, 0)
  | s, c :: rest =>
    if s.current = c then
      let (s2, n) := tagScan s.next rest
      (s2, n + 1)
    else (s, 0)

/-- The content loop of `_parse_raw_string`: accumulate until a `"` followed
by the full tag; a `"` not followed by the full tag contributes the quote and
the partially matched tag characters as literal content; end of stream is a
parse error. -/
def parseRawLoop : Nat → Inp → List Char → List Char → Except Err (List Char × Inp)
  | 0, _, _, _ => .error .fuel
  | f+1, s, tag, acc =>
    if s.current = EOSc then .error (.muParser "Unexpected end of input")
    else if s.current ≠ '"' then parseRawLoop f s.next tag (acc ++ [s.current])
    else
      let s1 := s.next
      if tag = [] then .ok (acc, s1)
      else
        let (s2, count) := tagScan s1 tag
        if count = tag.length then .ok (acc, s2)
        else parseRawLoop f s2 tag (acc ++ ['"'] ++ tag.take count)

/-- `_parse_raw_string`: `#`, alphanumeric tag, `"` (asserted), content loop,
token capture and trailing trivia. -/
def parseRawString : Nat → Inp → Except Err (SExpr × Inp)
  | 0, _ => .error .fuel
  | f+1, s =>
    if s.current ≠ '#' then .error (.assertErr "Expected hash")
    else do
      let (tag, s) ← parseTagLoop f s.next []
      if s.current ≠ '"' then .error (.assertErr "Expected opening quote")
      else do
        let (value, s) ← parseRawLoop f s.next tag []
        let (tok, s) := s.capture
        let (sp, s) ← skipWhitespace f s
        .ok (.str value (some ⟨some tok, some sp⟩), s)

/-- The explicit-colon branch of `_parse_map`'s field loop: a `:` must be
next (else a parse error), and is captured with its trailing trivia. -/
def parseMapColon (f : Nat) (s : Inp) (key : SExpr) :
    Except Err (SExpr × TokenSpans × Inp) :=
  if s.current ≠ ':' then .error (.muParser "Expected colon")
  else do
    let s := s.next
    let (tok, s) := s.capture
    let (sp, s) ← skipWhitespace f s
    pure (key, ⟨some tok, some sp⟩, s)

/-- The key-handling step of `_parse_map`'s field loop: a key that is an atom
whose text ends in `:` is split — the trailing colon is sliced off its token
span and becomes the field's colon trivia (the "surgery" in the source);
any other key requires an explicit `:` to follow. -/
def keyStep (f : Nat) (s : Inp) (key : SExpr) :
    Except Err (SExpr × TokenSpans × Inp) :=
  match key with
  | .atom value span =>
    if value.getLast? = some ':' then do
      let ts ← match span with
        | some ts => pure ts
        | none => Except.error (.typeErr "NoneType has no attribute token")
      let key_span ← match ts.token with
        | some sp => pure sp
        | none => Except.error (.typeErr "NoneType is not subscriptable")
      let tokA ← key_span.slice none (some (-1))
      let tokB ← key_span.slice (some (-1)) (some (-1))
      let colon_span ← key_span.slice (some (-1)) none
      pure ((SExpr.atom value.dropLast (some ⟨some tokA, some tokB⟩),
             (⟨some colon_span, ts.space⟩ : TokenSpans), s))
    else
      parseMapColon f s key
  | _ => parseMapColon f s key

mutual
/-- `_parse_one_sexpr`: skip (already-captured) whitespace, then dispatch on
the current character. -/
def parseOneSexpr : Nat → Inp → Except Err (SExpr × Inp)
  | 0, _ => .error .fuel
  | f+1, s => do
    let (_, s) ← skipWhitespace f s
    if s.current = '(' then parseGroup f s
    else if s.current = '[' then parseListS f s
    else if s.current = '"' then parseString f s
    else if s.current = '#' then parseRawString f s
    else if s.current = '\x7b' then parseMap f s
    else parseAtom f s

/-- `_parse_group`: `(`, items with separator trivia, `)`. -/
def parseGroup : Nat → Inp → Except Err (SExpr × Inp)
  | 0, _ => .error .fuel
  | f+1, s =>
    if s.current ≠ '(' then .error (.assertErr "Expected open bracket")
    else do
      let s := s.next
      let (tok, s) := s.capture
      let (sp, s) ← skipWhitespace f s
      let (values, separators, s) ← parseGroupLoop f s [] []
      let s := s.next
      let (ctok, s) := s.capture
      let (csp, s) ← skipWhitespace f s
      .ok (.group values (some ⟨some tok, some sp⟩) (some separators)
            (some ⟨some ctok, some csp⟩), s)

/-- The item loop of `_parse_group`: until `)`; end of stream raises; each
item is followed by an optional (skipped) comma and its separator trivia. -/
def parseGroupLoop : Nat → Inp → List SExpr → List TokenSpans →
    Except Err (List SExpr × List TokenSpans × Inp)
  | 0, _, _, _ => .error .fuel
  | f+1, s, vals, seps =>
    if s.current = ')' then .ok (vals, seps, s)
    else if s.current = EOSc then .error (.muParser "Unexpected end of input")
    else do
      let (v, s) ← parseOneSexpr f s
      let s := if s.current = ',' then s.next else s
      let (tok, s) := s.capture
      let (sp, s) ← skipWhitespace f s
      parseGroupLoop f s (vals ++ [v]) (seps ++ [⟨some tok, some sp⟩])

/-- `_parse_list`: `[`, items with separator trivia, `]`. -/
def parseListS : Nat → Inp → Except Err (SExpr × Inp)
  | 0, _ => .error .fuel
  | f+1, s =>
    if s.current ≠ '[' then .error (.assertErr "Expected open bracket")
    else do
      let s := s.next
      let (tok, s) := s.capture
      let (sp, s) ← skipWhitespace f s
      let (values, separators, s) ← parseListLoop f s [] []
      let s := s.next
      let (ctok, s) := s.capture
      let (csp, s) ← skipWhitespace f s
      .ok (.seq values (some ⟨some tok, some sp⟩) (some separators)
            (some ⟨some ctok, some csp⟩), s)

/-- The item loop of `_parse_list`. -/
def parseListLoop : Nat → Inp → List SExpr → List TokenSpans →
    Except Err (List SExpr × List TokenSpans × Inp)
  | 0, _, _, _ => .error .fuel
  | f+1, s, vals, seps =>
    if s.current = ']' then .ok (vals, seps, s)
    else if s.current = EOSc then .error (.muParser "Unexpected end of input")
    else do
      let (v, s) ← parseOneSexpr f s
      let s := if s.current = ',' then s.next else s
      let (tok, s) := s.capture
      let (sp, s) ← skipWhitespace f s
      parseListLoop f s (vals ++ [v]) (seps ++ [⟨some tok, some sp⟩])

/-- `_parse_map`: `{`, fields with separator trivia, `}`. -/
def parseMap : Nat → Inp → Except Err (SExpr × Inp)
  | 0, _ => .error .fuel
  | f+1, s =>
    if s.current ≠ '\x7b' then .error (.assertErr "Expected open bracket")
    else do
      let s := s.next
      let (tok, s) := s.capture
      let (sp, s) ← skipWhitespace f s
      let (values, separators, s) ← parseMapLoop f s [] []
      let s := s.next
      let (ctok, s) := s.capture
      let (csp, s) ← skipWhitespace f s
      .ok (.map values (some ⟨some tok, some sp⟩) (some separators)
            (some ⟨some ctok, some csp⟩), s)

/-- The field loop of `_parse_map`. A key that is an atom whose text ends in
`:` is split: the trailing colon is sliced off its token span and becomes the
field's colon trivia (the "surgery" in the source); otherwise an explicit `:`
must follow. Then the value, an optional comma, and separator trivia. -/
def parseMapLoop : Nat → Inp → List SMapField → List TokenSpans →
    Except Err (List SMapField × List TokenSpans × Inp)
  | 0, _, _, _ => .error .fuel
  | f+1, s, fields, seps =>
    if s.current = '\x7d' then .ok (fields, seps, s)
    else if s.current = EOSc then .error (.muParser "Unexpected end of input")
    else do
      let (key, s) ← parseOneSexpr f s
      let (key2, colon, s) ← keyStep f s key
      let (value, s) ← parseOneSexpr f s
      let fields := fields ++ [SMapField.mk key2 value (some colon)]
      let s := if s.current = ',' then s.next else s
      let (tok, s) := s.capture
      let (sp, s) ← skipWhitespace f s
      parseMapLoop f s fields (seps ++ [⟨some tok, some sp⟩])

end

/-- The top-level loop of `sexpr`: parse expressions until end of stream. -/
def parseTopLoop : Nat → Inp → List SExpr → Except Err (List SExpr × Inp)
  | 0, _, _ => .error .fuel
  | f+1, s, acc =>
    if s.current = EOSc then .ok (acc, s)
    else do
      let (e, s) ← parseOneSexpr f s
      parseTopLoop f s (acc ++ [e])

/-- `sexpr(input, no_spans)` at a given recursion fuel: skip and capture the
leading trivia, parse top-level expressions until end of stream, and strip
spans when `no_spans` is set. -/
def sexprFuel (f : Nat) (input : List Char) (no_spans : Bool) : Except Err SDoc := do
  let s := Inp.ofText input
  let (leading, s) ← skipWhitespace f s
  let (top, _) ← parseTopLoop f s []
  let d : SDoc := ⟨top, some leading⟩
  pure (if no_spans then d.drop_spans else d)

/-- Ample recursion fuel for an input: the call depth of the Python parser is
linear in the input length with a small constant. -/
def defaultFuel (input : List Char) : Nat := 8 * input.length + 64

/-- The public `sexpr` entry point of `mu/parser.py`. -/
def sexpr (input : List Char) (no_spans : Bool := true) : Except Err SDoc :=
  sexprFuel (defaultFuel input) input no_spans

/-! ## The evaluator (`mu/exec.py`) -/

/-- The Python classes that can appear as the argument of the `Quoted[...]`
generic in a declared parameter type: the `SExpr` base class, its node
subclasses, or an unrelated class. -/
inductive PyClass where
  | cSExpr | cAtom | cStr | cReal | cInt | cRational | cGroup | cSeq | cMap
  | cOther (name : String)
deriving DecidableEq, Repr

/-- A declared parameter type as the evaluator inspects it: the only
distinction `NativeFunction.__call__` makes is whether the type is the
`Quoted` generic applied to a class (`type.__origin__ == Quoted`); every
other annotation (`int`, `str`, `List[str]`, or no annotation at all,
recorded as `Any`) is treated alike. -/
inductive PyType where
  | any
  | quoted (cls : PyClass)
  | plain (name : String)
deriving DecidableEq, Repr

/-- `issubclass(cls, SExpr)`, for the classes that can parameterize
`Quoted`. -/
def issubclassSExpr : PyClass → Bool
  | .cOther _ => false
  | _ => true

/-- `isinstance(node, cls)` for a syntax node and a `PyClass` (the node
classes are leaves, so instance-of is exactly the constructor test; every
node is an instance of the `SExpr` base class). -/
def isinstanceNode (e : SExpr) (cls : PyClass) : Bool :=
  match cls, e with
  | .cSExpr, _ => true
  | .cAtom, .atom _ _ => true
  | .cStr, .str _ _ => true
  | .cReal, .real _ _ => true
  | .cInt, .int _ _ => true
  | .cRational, .rational _ _ => true
  | .cGroup, .group _ _ _ _ => true
  | .cSeq, .seq _ _ _ _ => true
  | .cMap, .map _ _ _ _ => true
  | _, _ => false

/-- `FunctionSignature` from `mu/exec.py`: ordered parameter names, the
per-parameter declared types, and the return type. -/
structure FunctionSignature where
  arg_names : List String
  arg_types : List (String × PyType)
  return_type : PyType
deriving DecidableEq, Repr

/-- `arg_types.get(name, Any)`. -/
def typeGet (ts : List (String × PyType)) (n : String) : PyType :=
  ((ts.find? (fun kv => kv.1 = n)).map Prod.snd).getD .any

/-- Runtime values. Host-provided callables are identified by a number whose
behaviour the abstract `Host` record interprets: `vNative` is a
`NativeFunction` (a `CallableObject` with a signature), `vCallable` a plain
Python callable without one, `vOpaque` any other non-callable host object.
`vErr` is a captured exception object (returned as a value by tolerant
top-level mode). -/
inductive Value where
  | vNone
  | vStr (s : List Char)
  | vList (items : List Value)
  | vDict (items : List (Value × Value))
  | vQuoted (node : SExpr)
  | vNative (fnId : Nat) (sig : FunctionSignature)
  | vCallable (fnId : Nat)
  | vOpaque (objId : Nat)
  | vErr (e : Err)

mutual
/-- Structural equality of runtime values (Python `==` on the built-in
values the evaluator creates; host objects compare by their identity
number, which also stands in for Python's identity-based equality of
`Quoted` and exception instances). -/
def Value.beq : Value → Value → Bool
  | .vNone, .vNone => true
  | .vStr a, .vStr b => a = b
  | .vList a, .vList b => Value.beqList a b
  | .vDict a, .vDict b => Value.beqPairs a b
  | .vQuoted a, .vQuoted b => SExpr.beq a b
  | .vNative a s1, .vNative b s2 => a = b && s1 = s2
  | .vCallable a, .vCallable b => a = b
  | .vOpaque a, .vOpaque b => a = b
  | .vErr a, .vErr b => a = b
  | _, _ => false

/-- Elementwise `Value.beq`. -/
def Value.beqList : List Value → List Value → Bool
  | [], [] => true
  | x :: xs, y :: ys => Value.beq x y && Value.beqList xs ys
  | _, _ => false

/-- Elementwise `Value.beq` on key/value pairs. -/
def Value.beqPairs : List (Value × Value) → List (Value × Value) → Bool
  | [], [] => true
  | (k1, v1) :: xs, (k2, v2) :: ys =>
      Value.beq k1 k2 && Value.beq v1 v2 && Value.beqPairs xs ys
  | _, _ => false
end

/-- Python dict assignment `d[k] = v` for the `OrderedDict` built by map
evaluation: an unhashable key (a list or dict) raises `TypeError`; an
existing equal key keeps its position and has its value replaced; a new key
is appended. -/
def pyDictInsert (d : List (Value × Value)) (k v : Value) :
    Except Err (List (Value × Value)) :=
  match k with
  | .vList _ => .error (.typeErr "unhashable type")
  | .vDict _ => .error (.typeErr "unhashable type")
  | _ =>
    if (d.map Prod.fst).any (fun k2 => Value.beq k2 k) then
      .ok (d.map (fun kv => if Value.beq kv.1 k then (kv.1, v) else kv))
    else
      .ok (d ++ [(k, v)])

/-- `ExecutionContext` from `mu/exec.py`: the mutable name-to-value
environment (modelled as an association list; registration happens
host-side and shows up as `vNative` entries carrying their signatures). -/
structure ExecutionContext where
  env : List (String × Value)

/-- Environment lookup `ctx.env[a]` (with `a not in ctx.env` as `none`). -/
def envGet (ctx : ExecutionContext) (a : String) : Option Value :=
  (ctx.env.find? (fun kv => kv.1 = a)).map Prod.snd

/-- The host-side behaviour the evaluator calls into but does not itself
implement: the body of a `NativeFunction` (`self.fn(*args, **kwargs)`), a
plain Python callable, `importlib`-based resolution of a `py.` atom
(including the signature introspection and `NativeFunction` wrapping the
source performs on a callable result), and Python's `str()` on a
non-string value. -/
structure Host where
  callFn : Nat → List Value → List (String × Value) → Except Err Value
  callPlain : Nat → List Value → List (String × Value) → Except Err Value
  resolvePy : List Char → Except Err Value
  strOf : Value → List Char

/-- Python `str(v)` as string interpolation applies it: a `str` is itself;
anything else is host-rendered. -/
def pyStr (h : Host) : Value → List Char
  | .vStr s => s
  | v => h.strOf v

/-- One segment of the interpolation scan of a string literal: a stretch of
literal text, a `${body}` match (the capture group), or a `$$` match. -/
inductive InterpSeg where
  | lit (chunk : List Char)
  | expr (body : List Char)
  | dollar
deriving DecidableEq, Repr

/-- The regex fragment `\{([^\}]+)\}` applied right after a `$`: a `{`, one
or more non-`}` characters (greedy), then `}`; returns the capture and the
rest of the input. -/
def findInterpBody : List Char → Option (List Char × List Char)
  | [] => none
  | c :: rest =>
    if c = '\x7b' then
      let body := rest.takeWhile (fun c2 => c2 ≠ '\x7d')
      if body = [] then none
      else
        match rest.drop body.length with
        | d :: rest2 => if d = '\x7d' then some (body, rest2) else none
        | [] => none
    else none

/-- The scan of `re.finditer(r'\$\{([^\}]+)\}|\$\$', s)`: left to right,
at each position try `\$\{([^\}]+)\}` then `\$\$`, else advance one literal
character. Fuel-indexed; `interpMatches` below supplies ample fuel. -/
def interpScanF : Nat → List Char → List InterpSeg
  | 0, s => [.lit s]
  | _+1, [] => []
  | f+1, c :: rest =>
    if c = '$' then
      match findInterpBody rest with
      | some (body, rest2) => .expr body :: interpScanF f rest2
      | none =>
        match rest with
        | c2 :: rest2 =>
          if c2 = '$' then .dollar :: interpScanF f rest2
          else .lit [c] :: interpScanF f rest
        | [] => .lit [c] :: interpScanF f rest
    else .lit [c] :: interpScanF f rest

/-- The interpolation scan of a string literal. -/
def interpMatches (s : List Char) : List InterpSeg :=
  interpScanF (s.length + 1) s

/-- The argument-partitioning loop of the `SGroup` case
(`for index, arg in enumerate(tail)`): an atom starting with `:` names a
keyword argument whose value is `tail[index + 1]` (the guarding assertion
compares against `len(g)`, one more than `len(tail)`, so it never fires and
a trailing keyword atom falls through to an `IndexError`); a repeated
keyword name is an assertion failure; any other item is positional unless
it is equal to an already-recorded keyword value (`arg not in
kwargs.values()`). -/
def partitionLoop (gLen : Nat) (tail : List SExpr) :
    List SExpr → Nat → List SExpr → List (String × SExpr) →
    Except Err (List SExpr × List (String × SExpr))
  | [], _, args, kwargs => .ok (args, kwargs)
  | arg :: rest, index, args, kwargs =>
    match arg with
    | .atom a sp =>
      if a.head? = some ':' then
        let key : String := ⟨a.tail⟩
        if ¬ (index + 1 < gLen) then
          .error (.assertErr "Missing value for keyword argument")
        else if (kwargs.map Prod.fst).contains key then
          .error (.assertErr "Duplicate keyword argument")
        else
          match tail.get? (index + 1) with
          | some v => partitionLoop gLen tail rest (index + 1) args (kwargs ++ [(key, v)])
          | none => .error .indexErr
      else
        if (kwargs.map Prod.snd).any (fun v => SExpr.beq v (.atom a sp)) then
          partitionLoop gLen tail rest (index + 1) args kwargs
        else
          partitionLoop gLen tail rest (index + 1) (args ++ [.atom a sp]) kwargs
    | arg =>
      if (kwargs.map Prod.snd).any (fun v => SExpr.beq v arg) then
        partitionLoop gLen tail rest (index + 1) args kwargs
      else
        partitionLoop gLen tail rest (index + 1) (args ++ [arg]) kwargs

mutual
/-- `eval_sexpr` of `mu/exec.py` restricted to a syntax node (the
`SDoc`/list isinstance branches are `evalSexprDoc`/`evalSexprList` below).
`tol` is `ignore_toplevel_exceptions`; note that every recursive call the
source makes uses that parameter's default `False`. -/
def evalSexpr (h : Host) : Nat → ExecutionContext → SExpr → Bool → Except Err Value
  | 0, _, _, _ => .error .fuel
  | f+1, ctx, e, tol =>
    match e with
    | .atom a _ =>
      if a.take 3 = "py.".data then
        let path := a.drop 3
        if path.contains '/' then h.resolvePy path
        else .error (.valueErr "not enough values to unpack")
      else
        match envGet ctx ⟨a⟩ with
        | none => .error (.muName "Name is not defined")
        | some v => .ok v
    | .str s _ =>
      if s.contains '$' then
        (interpolate h f ctx (interpMatches s) []).map .vStr
      else .ok (.vStr s)
    | .seq items _ _ _ =>
      (evalEach h f ctx items).map .vList
    | .map fields _ _ _ =>
      evalMapFields h f ctx fields []
    | .group g _ _ _ =>
      match g with
      | [] => .error (.assertErr "Empty group")
      | g0 :: tail =>
        match evalGroupBody h f ctx g0 tail with
        | .ok v => .ok v
        | .error e => if tol then .ok (.vErr e) else .error e
    | _ => .ok .vNone

/-- The `try` body of the `SGroup` case: evaluate the head, partition the
remaining items into positional and keyword arguments, and dispatch on the
callee (`CallableObject` with signature / plain callable / not callable). -/
def evalGroupBody (h : Host) : Nat → ExecutionContext → SExpr → List SExpr →
    Except Err Value
  | 0, _, _, _ => .error .fuel
  | f+1, ctx, g0, tail => do
    let fn ← evalSexpr h f ctx g0 false
    let (args, kwargs) ← partitionLoop (tail.length + 1) tail tail 0 [] []
    match fn with
    | .vNative fnId sig => callNative h f ctx fnId sig args kwargs
    | .vCallable fnId => do
      let eargs ← evalEach h f ctx args
      let ekwargs ← evalKwargsEach h f ctx kwargs
      h.callPlain fnId eargs ekwargs
    | _ => .error (.typeErr "Cannot call")

/-- `NativeFunction.__call__`: truncate the parameter-name list to the
positional-argument count (`bound_args`), compute the declared-name-filtered
keyword dict (`bound_kwargs` — computed but never used, exactly as in the
source), evaluate every positional argument with the declared type of
`bound_args[arg_index]` (an `IndexError` when there are more positional
arguments than declared parameters) and every keyword argument of `kwargs`
(not `bound_kwargs`) with the declared type of its name, then invoke the
wrapped function. -/
def callNative (h : Host) : Nat → ExecutionContext → Nat → FunctionSignature →
    List SExpr → List (String × SExpr) → Except Err Value
  | 0, _, _, _, _, _ => .error .fuel
  | f+1, ctx, fnId, sig, args, kwargs => do
    let bound_args := sig.arg_names.take args.length
    let _bound_kwargs := kwargs.filter (fun kv => sig.arg_names.contains kv.1)
    let eargs ← evalArgsLoop h f ctx bound_args sig.arg_types args 0
    let ekwargs ← evalKwargsMaybe h f ctx sig.arg_types kwargs
    h.callFn fnId eargs ekwargs

/-- The `evaluated_args` list comprehension of `NativeFunction.__call__`:
each positional argument is evaluated (or quoted) against
`arg_types.get(bound_args[arg_index], Any)`; indexing `bound_args` out of
range raises `IndexError`. -/
def evalArgsLoop (h : Host) : Nat → ExecutionContext → List String →
    List (String × PyType) → List SExpr → Nat → Except Err (List Value)
  | 0, _, _, _, _, _ => .error .fuel
  | _+1, _, _, _, [], _ => .ok []
  | f+1, ctx, bound_args, arg_types, a :: rest, i => do
    let name ← match bound_args.get? i with
      | some n => pure n
      | none => Except.error Err.indexErr
    let v ← evalArgMaybe h f ctx a (typeGet arg_types name)
    let vs ← evalArgsLoop h f ctx bound_args arg_types rest (i + 1)
    pure (v :: vs)

/-- The `evaluated_kwargs` dict comprehension of `NativeFunction.__call__`:
every keyword argument of the call (declared or not) evaluated against the
declared type of its name. -/
def evalKwargsMaybe (h : Host) : Nat → ExecutionContext →
    List (String × PyType) → List (String × SExpr) →
    Except Err (List (String × Value))
  | 0, _, _, _ => .error .fuel
  | _+1, _, _, [] => .ok []
  | f+1, ctx, arg_types, (k, v) :: rest => do
    let ev ← evalArgMaybe h f ctx v (typeGet arg_types k)
    let evs ← evalKwargsMaybe h f ctx arg_types rest
    pure ((k, ev) :: evs)

/-- `eval_arg_maybe` of `NativeFunction.__call__`: when the declared type is
`Quoted[cls]`, assert `cls` is an `SExpr` subclass (the preceding
`isinstance(arg, SExpr)` assertion always holds here because arguments are
syntax nodes), fail with `TypeError` unless the raw argument node is an
instance of `cls`, and pass the node through quoted and unevaluated;
any other declared type evaluates the argument node first. -/
def evalArgMaybe (h : Host) : Nat → ExecutionContext → SExpr → PyType →
    Except Err Value
  | 0, _, _, _ => .error .fuel
  | f+1, ctx, arg, t =>
    match t with
    | .quoted cls =>
      if ¬ issubclassSExpr cls then .error (.assertErr "Expected SExpr subtype")
      else if isinstanceNode arg cls then .ok (.vQuoted arg)
      else .error (.typeErr "Quoted argument node kind mismatch")
    | _ => evalSexpr h f ctx arg false

/-- Elementwise evaluation of a node list (each element with the tolerant
flag at its default `False`). -/
def evalEach (h : Host) : Nat → ExecutionContext → List SExpr →
    Except Err (List Value)
  | 0, _, _ => .error .fuel
  | _+1, _, [] => .ok []
  | f+1, ctx, e :: rest => do
    let v ← evalSexpr h f ctx e false
    let vs ← evalEach h f ctx rest
    pure (v :: vs)

/-- The keyword arguments of a plain-callable call, each value evaluated
eagerly. -/
def evalKwargsEach (h : Host) : Nat → ExecutionContext →
    List (String × SExpr) → Except Err (List (String × Value))
  | 0, _, _ => .error .fuel
  | _+1, _, [] => .ok []
  | f+1, ctx, (k, v) :: rest => do
    let ev ← evalSexpr h f ctx v false
    let evs ← evalKwargsEach h f ctx rest
    pure ((k, ev) :: evs)

/-- The `SMap` case of `eval_sexpr`: evaluate each field's key then value in
order, inserting into the ordered dict with last-write-wins overwrite. -/
def evalMapFields (h : Host) : Nat → ExecutionContext → List SMapField →
    List (Value × Value) → Except Err Value
  | 0, _, _, _ => .error .fuel
  | _+1, _, [], acc => .ok (.vDict acc)
  | f+1, ctx, .mk k v _ :: rest, acc => do
    let kv ← evalSexpr h f ctx k false
    let vv ← evalSexpr h f ctx v false
    let acc2 ← pyDictInsert acc kv vv
    evalMapFields h f ctx rest acc2

/-- The interpolation loop of the `SStr` case: literal chunks are copied,
`$$` yields `$`, and each `${body}` is parsed (`sexpr(body)`, trivia
dropped), evaluated as a list of top-level expressions, its last value
(`[-1]`, an `IndexError` when the list is empty) stringified and
substituted. -/
def interpolate (h : Host) : Nat → ExecutionContext → List InterpSeg →
    List Char → Except Err (List Char)
  | 0, _, _, _ => .error .fuel
  | _+1, _, [], acc => .ok acc
  | f+1, ctx, .lit l :: rest, acc => interpolate h f ctx rest (acc ++ l)
  | f+1, ctx, .dollar :: rest, acc => interpolate h f ctx rest (acc ++ [Char.ofNat 36])
  | f+1, ctx, .expr body :: rest, acc => do
    let d ← sexpr body
    let vals ← evalEach h f ctx d.exprs
    let last ← match vals.getLast? with
      | some v => pure v
      | none => Except.error Err.indexErr
    interpolate h f ctx rest (acc ++ pyStr h last)
end

/-- The `SDoc` branch of `eval_sexpr`: evaluate each top-level expression —
with `ignore_toplevel_exceptions` at its default `False`, the `tol`
parameter of this call being dropped exactly as in the source
(`[eval_sexpr(ctx, x) for x in e.exprs]`). -/
def evalSexprDoc (h : Host) (f : Nat) (ctx : ExecutionContext) (d : SDoc)
    (tol : Bool) : Except Err (List Value) :=
  evalEach h f ctx d.exprs

/-- The bare-list branch of `eval_sexpr`; like the `SDoc` branch it does not
forward the `tol` flag. -/
def evalSexprList (h : Host) (f : Nat) (ctx : ExecutionContext)
    (es : List SExpr) (tol : Bool) : Except Err (List Value) :=
  evalEach h f ctx es

/-! ## Concrete instances used by the theorems -/

/-- A host whose callables all return `None` and whose `str()` renders
nothing: the simplest closed instantiation of the host interface. -/
def hostNull : Host :=
  ⟨fun _ _ _ => .ok .vNone, fun _ _ _ => .ok .vNone,
   fun _ => .ok .vNone, fun _ => []⟩

/-- The signature a registration of `def add(a: int, b: int) -> int` builds. -/
def sigAdd : FunctionSignature :=
  ⟨["a", "b"], [("a", .plain "int"), ("b", .plain "int")], .plain "int"⟩

/-- An environment with `add` registered (host id 2) and a string `x`. -/
def ctxAdd : ExecutionContext :=
  ⟨[("add", .vNative 2 sigAdd), ("x", .vStr ['x', 'v'])]⟩

/-- The signature a registration of
`def quotes(name: Quoted[SExpr], data: Quoted[SAtom]) -> str` builds
(the `quotes` fixture of `test_exec.py`). -/
def sigQuotes : FunctionSignature :=
  ⟨["name", "data"],
   [("name", .quoted .cSExpr), ("data", .quoted .cAtom)], .plain "str"⟩

/-- An environment with `quotes` registered (host id 7). -/
def ctxQuotes : ExecutionContext := ⟨[("quotes", .vNative 7 sigQuotes)]⟩

/-- A two-form document whose first top-level form fails (undefined name)
and whose second is a plain string literal. -/
def docTolerantDemo : SDoc :=
  ⟨[.group [.atom "nope".data none] none none none, .str "ok".data none], none⟩

/-- The position of the raw-string terminator in the content that follows
the opening quote: the first index holding a `"` that is immediately
followed by the full tag. This is the specification the content loop of
`_parse_raw_string` is proved against. -/
def rawTerm (tag : List Char) : List Char → Option Nat
  | [] => none
  | c :: rest =>
    if c = '"' ∧ tag.isPrefixOf rest then some 0
    else (rawTerm tag rest).map (· + 1)

/-- A concrete span over the text `"abc"` on one line. -/
def spanAbc : Span := ⟨⟨1, 1, 0⟩, ⟨1, 4, 3⟩, ['a', 'b', 'c']⟩

/-- A length-correct span whose raw text ends in a newline. -/
def spanNl : Span := ⟨⟨1, 1, 0⟩, ⟨2, 1, 2⟩, ['a', '\n']⟩

/-- The cursor state after a whitespace skip: the current character is
neither whitespace nor the start of a comment. -/
def PostWS (s : Inp) : Prop := pyIsSpace s.current = false ∧ s.current ≠ ';'

/-- A well-marked cursor: the mark coincides with the current position and
the index is in range. Every state the parser threads between tokens
satisfies this. -/
def PreM (s : Inp) : Prop :=
  s.markIndex = s.index ∧ s.markLine = s.line ∧ s.markCol = s.col ∧
  s.index ≤ s.text.length

/-- An atom as the parser produces it: its trivia is present and its token
span satisfies the `Span` length invariant with raw text equal to the atom
text (what the map-key surgery of `_parse_map` relies on). -/
def AtomOK : SExpr → Prop
  | .atom v sp => ∃ tok space, sp = some ⟨some tok, some space⟩ ∧ tok.raw = v ∧ tok.wf
  | _ => True

/-- The contract of each node-producing parse function on success: text and
mark invariants are maintained, the cursor only moves forward, trailing
trivia has been skipped, the node renders to exactly the consumed region of
the input, and atoms satisfy `AtomOK`. -/
def POut (T : List Char) (i : Nat) (e : SExpr) (sE : Inp) : Prop :=
  sE.text = T ∧ PreM sE ∧ i ≤ sE.index ∧ PostWS sE ∧
  e.render = some (subT T i sE.index) ∧ AtomOK e

/-- The joint induction hypothesis for the mutually recursive parse
functions at a given fuel: each returns `POut` (wrappers), and each item
loop extends its accumulated nodes and separators so that their rendering
grows by exactly the consumed region. -/
def ParserSpecs (f : Nat) : Prop :=
  (∀ s e sE, PreM s → PostWS s → parseOneSexpr f s = .ok (e, sE) →
      POut s.text s.index e sE) ∧
  (∀ s e sE, PreM s → parseGroup f s = .ok (e, sE) → POut s.text s.index e sE) ∧
  (∀ s vals seps r vals2 seps2 sE, PreM s → PostWS s →
      vals.length = seps.length →
      SExpr.renderItems vals (some seps) = some r →
      parseGroupLoop f s vals seps = .ok (vals2, seps2, sE) →
      sE.text = s.text ∧ PreM sE ∧ s.index ≤ sE.index ∧ sE.current = ')' ∧
      vals2.length = seps2.length ∧
      SExpr.renderItems vals2 (some seps2) =
        some (r ++ subT s.text s.index sE.index)) ∧
  (∀ s e sE, PreM s → parseListS f s = .ok (e, sE) → POut s.text s.index e sE) ∧
  (∀ s vals seps r vals2 seps2 sE, PreM s → PostWS s →
      vals.length = seps.length →
      SExpr.renderItems vals (some seps) = some r →
      parseListLoop f s vals seps = .ok (vals2, seps2, sE) →
      sE.text = s.text ∧ PreM sE ∧ s.index ≤ sE.index ∧ sE.current = ']' ∧
      vals2.length = seps2.length ∧
      SExpr.renderItems vals2 (some seps2) =
        some (r ++ subT s.text s.index sE.index)) ∧
  (∀ s e sE, PreM s → parseMap f s = .ok (e, sE) → POut s.text s.index e sE) ∧
  (∀ s flds seps r flds2 seps2 sE, PreM s → PostWS s →
      flds.length = seps.length →
      SExpr.renderFields flds (some seps) = some r →
      parseMapLoop f s flds seps = .ok (flds2, seps2, sE) →
      sE.text = s.text ∧ PreM sE ∧ s.index ≤ sE.index ∧ sE.current = '\x7d' ∧
      flds2.length = seps2.length ∧
      SExpr.renderFields flds2 (some seps2) =
        some (r ++ subT s.text s.index sE.index))

/-! ## Theorems -/

theorem exBind_ok {α β : Type} (a : α) (f : α → Except Err β) :
    (Except.ok a >>= f) = f a := rfl

theorem exBind_error {α β : Type} (e : Err) (f : α → Except Err β) :
    ((Except.error e : Except Err α) >>= f) = .error e := rfl

theorem exPure_bind {α β : Type} (a : α) (f : α → Except Err β) :
    ((pure a : Except Err α) >>= f) = f a := rfl

/-- C2 (code bug): `eval_sexpr` on a `Document` does not forward
`ignore_toplevel_exceptions` to the per-form recursive calls: evaluating a
document whose first form fails aborts with the exception even in tolerant
mode (first conjunct), although the flag works when the failing `Group` is
passed to `eval_sexpr` directly (second conjunct) — so the claimed
per-form error capture never happens for documents. -/
theorem claim_C2_tolerant_doc (h : Host) (f : Nat) :
    evalSexprDoc h (f+12) ⟨[]⟩ docTolerantDemo true =
      .error (.muName "Name is not defined") ∧
    evalSexpr h (f+12) ⟨[]⟩ (.group [.atom "nope".data none] none none none) true =
      .ok (.vErr (.muName "Name is not defined")) :=
  ⟨rfl, rfl⟩

/-- The positional-argument evaluation loop of `NativeFunction.__call__`
always raises once the running index must pass the end of `bound_args`
(either an argument evaluation raises first, or indexing `bound_args`
raises `IndexError`). -/
theorem evalArgsLoop_over (h : Host) :
    ∀ (f : Nat) (ctx : ExecutionContext) (bound : List String)
      (types : List (String × PyType)) (args : List SExpr) (i : Nat),
      bound.length < i + args.length → i ≤ bound.length →
      ∃ e, evalArgsLoop h f ctx bound types args i = .error e := by
  intro f
  induction f with
  | zero => intro ctx bound types args i hlt hle; exact ⟨.fuel, rfl⟩
  | succ f ih =>
    intro ctx bound types args i hlt hle
    cases args with
    | nil => simp at hlt; omega
    | cons a rest =>
      simp only [evalArgsLoop]
      cases hn : bound.get? i with
      | none => exact ⟨.indexErr, by simp only [hn]; rfl⟩
      | some nm =>
        have hi : i < bound.length := by
          by_contra hcon
          rw [List.get?_eq_none.2 (by omega)] at hn
          exact Option.noConfusion hn
        simp only [hn, exPure_bind]
        cases hv : evalArgMaybe h f ctx a (typeGet types nm) with
        | error e => exact ⟨e, by simp only [hv, exBind_error]⟩
        | ok v =>
          obtain ⟨e, he⟩ := ih ctx bound types rest (i+1)
            (by simp at hlt ⊢; omega) (by omega)
          exact ⟨e, by simp only [hv, exBind_ok, he, exBind_error]⟩

/-- C3 (corrected): a call of a registered function with more positional
argument nodes than declared parameters never reaches the wrapped function:
`NativeFunction.__call__` raises (an `IndexError` from
`bound_args[arg_index]`, or an earlier argument-evaluation error) instead
of dropping the extra arguments. -/
theorem claim_C3_extra_positional (h : Host) (f : Nat) (ctx : ExecutionContext)
    (fnId : Nat) (sig : FunctionSignature) (args : List SExpr)
    (kwargs : List (String × SExpr))
    (hlt : sig.arg_names.length < args.length) :
    ∃ e, callNative h (f+1) ctx fnId sig args kwargs = .error e := by
  simp only [callNative]
  have hb : (sig.arg_names.take args.length).length < 0 + args.length := by
    simp [List.length_take]; omega
  obtain ⟨e, he⟩ := evalArgsLoop_over h f ctx (sig.arg_names.take args.length)
    sig.arg_types args 0 hb (by omega)
  exact ⟨e, by simp only [he, exBind_error]⟩

/-- Witness for C3: `add` declares two parameters; a call with three
positional arguments fails. -/
theorem claim_C3_witness :
    sigAdd.arg_names.length < 3 ∧
    ∃ e, callNative hostNull 5 ctxAdd 2 sigAdd
      [.str ['p'] none, .str ['q'] none, .str ['r'] none] [] = .error e :=
  ⟨by decide,
   claim_C3_extra_positional hostNull 4 ctxAdd 2 sigAdd
     [.str ['p'] none, .str ['q'] none, .str ['r'] none] [] (by decide)⟩

/-- Counterexample for C3 as stated: the concrete call `(add "p" "q" "r")`
against `add(a, b)` raises `IndexError` instead of dropping `"r"`. -/
theorem claim_C3_counterexample :
    evalSexpr hostNull 20 ctxAdd
      (.group [.atom "add".data none, .str ['p'] none, .str ['q'] none,
               .str ['r'] none] none none none) false = .error .indexErr := by
  rfl

/-- C4 (code bug): a keyword argument whose name is not a declared
parameter is not filtered out: `NativeFunction.__call__` computes
`bound_kwargs` but passes `kwargs`, so the undeclared keyword `zz` reaches
the wrapped function both through a direct call (first conjunct) and
through group evaluation of `(add "p" :zz "q")` (second conjunct), even
though `zz` is not among `add`'s parameter names (third conjunct). -/
theorem claim_C4_unknown_kwarg (h : Host) (f : Nat) :
    callNative h (f+12) ctxAdd 2 sigAdd [.str ['p'] none]
      [("zz", .str ['q'] none)] =
      h.callFn 2 [.vStr ['p']] [("zz", .vStr ['q'])] ∧
    evalGroupBody h (f+12) ctxAdd (.atom "add".data none)
      [.str ['p'] none, .atom ":zz".data none, .str ['q'] none] =
      h.callFn 2 [.vStr ['p']] [("zz", .vStr ['q'])] ∧
    sigAdd.arg_names.contains "zz" = false :=
  ⟨rfl, rfl, rfl⟩

/-- C5 (confirmed): `eval_arg_maybe` passes an argument bound to a
`Quoted[cls]` parameter through raw and wrapped when the node is an
instance of `cls` (first conjunct), raises `TypeError` when it is not
(second conjunct), and evaluates the argument first for every other
declared type (third conjunct); the spec's `quotes` scenario follows: the
call with `(quotes "Alice" data)` reaches the function with both raw nodes
quoted, while `(quotes "Alice" "data")` fails with the type error (fourth
and fifth conjuncts). -/
theorem claim_C5_quoting :
    (∀ (h : Host) (f : Nat) (ctx : ExecutionContext) (arg : SExpr) (cls : PyClass),
      issubclassSExpr cls = true → isinstanceNode arg cls = true →
      evalArgMaybe h (f+1) ctx arg (.quoted cls) = .ok (.vQuoted arg)) ∧
    (∀ (h : Host) (f : Nat) (ctx : ExecutionContext) (arg : SExpr) (cls : PyClass),
      issubclassSExpr cls = true → isinstanceNode arg cls = false →
      evalArgMaybe h (f+1) ctx arg (.quoted cls) =
        .error (.typeErr "Quoted argument node kind mismatch")) ∧
    (∀ (h : Host) (f : Nat) (ctx : ExecutionContext) (arg : SExpr) (t : PyType),
      (∀ cls, t ≠ .quoted cls) →
      evalArgMaybe h (f+1) ctx arg t = evalSexpr h f ctx arg false) ∧
    (∀ (h : Host) (f : Nat),
      evalGroupBody h (f+12) ctxQuotes (.atom "quotes".data none)
        [.str "Alice".data none, .atom "data".data none] =
        h.callFn 7 [.vQuoted (.str "Alice".data none),
                    .vQuoted (.atom "data".data none)] []) ∧
    (∀ (h : Host) (f : Nat),
      evalGroupBody h (f+12) ctxQuotes (.atom "quotes".data none)
        [.str "Alice".data none, .str "data".data none] =
        .error (.typeErr "Quoted argument node kind mismatch")) := by
  refine ⟨?_, ?_, ?_, fun h f => rfl, fun h f => rfl⟩
  · intro h f ctx arg cls h1 h2
    simp [evalArgMaybe, h1, h2]
  · intro h f ctx arg cls h1 h2
    simp [evalArgMaybe, h1, h2]
  · intro h f ctx arg t ht
    cases t with
    | any => rfl
    | quoted cls => exact absurd rfl (ht cls)
    | plain n => rfl

/-- Witness for C5: an atom bound to a `Quoted[SAtom]` parameter is passed
through quoted; a string node bound to it raises the type error. -/
theorem claim_C5_witness :
    issubclassSExpr .cAtom = true ∧
    evalArgMaybe hostNull 4 ⟨[]⟩ (.atom ['d'] none) (.quoted .cAtom) =
      .ok (.vQuoted (.atom ['d'] none)) ∧
    evalArgMaybe hostNull 4 ⟨[]⟩ (.str ['d'] none) (.quoted .cAtom) =
      .error (.typeErr "Quoted argument node kind mismatch") :=
  ⟨by decide,
   claim_C5_quoting.1 hostNull 3 ⟨[]⟩ (.atom ['d'] none) .cAtom (by decide) (by decide),
   claim_C5_quoting.2.1 hostNull 3 ⟨[]⟩ (.str ['d'] none) .cAtom (by decide) (by decide)⟩

/-- C8 (corrected, tolerant part): for a non-empty group, an error raised
by the call body under tolerant mode is caught and becomes the group's
value — whatever exception the intolerant run of the same group raises,
the tolerant run returns it as the value. -/
theorem claim_C8_tolerant_group (h : Host) (f : Nat) (ctx : ExecutionContext)
    (g0 : SExpr) (tail : List SExpr) (o c : Option TokenSpans)
    (sp : Option (List TokenSpans)) (e : Err)
    (hrun : evalSexpr h (f+1) ctx (.group (g0 :: tail) o sp c) false = .error e) :
    evalSexpr h (f+1) ctx (.group (g0 :: tail) o sp c) true = .ok (.vErr e) := by
  simp only [evalSexpr] at hrun ⊢
  cases hb : evalGroupBody h f ctx g0 tail with
  | ok v => rw [hb] at hrun; exact absurd hrun (by simp)
  | error e2 => rw [hb] at hrun; simp at hrun; simp [hrun]

/-- Witness for C8: a non-callable-head error (here a name-resolution
error in the head) is captured as the group's value in tolerant mode. -/
theorem claim_C8_witness :
    evalSexpr hostNull 5 ⟨[]⟩ (.group [.atom "nope".data none] none none none) true =
      .ok (.vErr (.muName "Name is not defined")) :=
  claim_C8_tolerant_group hostNull 4 ⟨[]⟩ (.atom "nope".data none) [] none none none
    (.muName "Name is not defined") rfl

/-- Counterexample for C8 as stated: the empty-group assertion sits outside
the `try` block, so an empty group raises even in tolerant mode instead of
becoming an error value. -/
theorem claim_C8_counterexample :
    evalSexpr hostNull 5 ⟨[]⟩ (.group [] none none none) true =
      .error (.assertErr "Empty group") := by
  rfl

/-- C9 (confirmed): the cursor's `current` equals the end-of-stream sentinel
exactly when the input is exhausted or the character under the cursor is a
literal NUL (first conjunct); consequently top-level parsing of `a\0b`
succeeds and silently discards everything after the NUL (second conjunct),
while a NUL inside a group, sequence, map or string is reported as an
unexpected-end-of-input parse error (remaining conjuncts). -/
theorem claim_C9_nul_sentinel :
    (∀ s : Inp, s.current = EOSc ↔
      (s.text.length ≤ s.index ∨ s.text.get? s.index = some EOSc)) ∧
    (sexpr "a\u0000b".data).map SDoc.exprs = .ok [.atom ['a'] none] ∧
    sexpr "(a\u0000b)".data = .error (.muParser "Unexpected end of input") ∧
    sexpr "[a\u0000]".data = .error (.muParser "Unexpected end of input") ∧
    sexpr "\x7b\u0000\x7d".data = .error (.muParser "Unexpected end of input") ∧
    sexpr "\"a\u0000\"".data = .error (.muParser "Unexpected end of input") := by
  refine ⟨?_, rfl, rfl, rfl, rfl, rfl⟩
  intro s
  by_cases h : s.index < s.text.length
  · simp only [Inp.current, dif_pos h]
    rw [List.get?_eq_get h]
    constructor
    · intro he; exact Or.inr (by rw [he])
    · intro hor
      rcases hor with hle | hsome
      · omega
      · exact Option.some.inj hsome
  · simp only [Inp.current, dif_neg h]
    have hle : s.text.length ≤ s.index := by omega
    simp [hle]

/-- Witness for C9: the sentinel equivalence applied to concrete cursors,
one over the one-character text `"\0"` and one over the empty text. -/
theorem claim_C9_witness :
    (Inp.ofText [EOSc]).current = EOSc ∧ (Inp.ofText []).current = EOSc :=
  ⟨(claim_C9_nul_sentinel.1 (Inp.ofText [EOSc])).mpr (Or.inr rfl),
   (claim_C9_nul_sentinel.1 (Inp.ofText [])).mpr (Or.inl (by decide))⟩

/-- Every interpolation body the scan matches is non-empty and contains no
closing brace: the regex `[^\x7d]+` closes at the first following brace. -/
theorem findInterpBody_some : ∀ {l body rest2 : List Char},
    findInterpBody l = some (body, rest2) → body ≠ [] ∧ '\x7d' ∉ body := by
  intro l body rest2 hf
  match l with
  | [] => exact absurd hf (by simp [findInterpBody])
  | c :: r =>
    simp only [findInterpBody] at hf
    split at hf
    · split at hf
      · exact absurd hf (by simp)
      · split at hf
        · split at hf
          · injection hf with hf2
            injection hf2 with hbody hrest
            subst hbody
            constructor
            · assumption
            · intro hmem
              have := List.mem_takeWhile_imp hmem
              simp at this
          · exact absurd hf (by simp)
        · exact absurd hf (by simp)
    · exact absurd hf (by simp)

/-- Every `expr` segment the interpolation scan produces has a non-empty
body free of closing braces. -/
theorem interpScanF_expr_body : ∀ (f : Nat) (s b : List Char),
    InterpSeg.expr b ∈ interpScanF f s → b ≠ [] ∧ '\x7d' ∉ b := by
  intro f
  induction f with
  | zero => intro s b hm; simp [interpScanF] at hm
  | succ f ih =>
    intro s b hm
    match s with
    | [] => simp [interpScanF] at hm
    | c :: rest =>
      simp only [interpScanF] at hm
      split at hm
      · split at hm
        · rename_i pr heq
          cases hm with
          | head => exact findInterpBody_some heq
          | tail _ hmem => exact ih _ b hmem
        · split at hm
          · split at hm
            · cases hm with
              | tail _ hmem => exact ih _ b hmem
            · cases hm with
              | tail _ hmem => exact ih _ b hmem
          · cases hm with
            | tail _ hmem => exact ih _ b hmem
      · cases hm with
        | tail _ hmem => exact ih _ b hmem

/-- `takeWhile` up to the first closing brace recovers exactly a brace-free
chunk placed before a closing brace. -/
theorem takeWhile_ne_brace (body rest : List Char) (hb : '\x7d' ∉ body) :
    (body ++ '\x7d' :: rest).takeWhile (fun c2 => c2 ≠ '\x7d') = body := by
  induction body with
  | nil => simp [List.takeWhile_cons]
  | cons c cs ih =>
    have hc : c ≠ '\x7d' := fun hcon => hb (hcon ▸ List.mem_cons_self c cs)
    have hcs : '\x7d' ∉ cs := fun hcon => hb (List.mem_cons_of_mem c hcon)
    simp only [List.takeWhile]
    rw [show (decide (c ≠ '\x7d')) = true by simp [hc]]
    exact congrArg _ (ih hcs)

/-- A well-formed marker (opening brace, non-empty brace-free body, closing
brace) is matched, capturing exactly the body and leaving the rest. -/
theorem findInterpBody_marker (body rest : List Char) (h1 : body ≠ [])
    (h2 : '\x7d' ∉ body) :
    findInterpBody ('\x7b' :: (body ++ '\x7d' :: rest)) = some (body, rest) := by
  simp only [findInterpBody, if_pos rfl]
  rw [takeWhile_ne_brace body rest h2, if_neg h1, List.drop_left]
  simp

/-- C10 (confirmed): interpolation markers are found by the scan of
`re.finditer` in which a dollar-brace opener is closed by the first
following closing brace — every matched body is non-empty and contains no
closing brace (first conjunct), and a well-formed marker captures exactly
the brace-free body (second conjunct); in particular the body matched
inside `"$\x7b \x7ba: 1\x7d \x7d"` is cut at the map literal's first
closing brace (third conjunct), and the empty marker `"$\x7b\x7d"` is not
matched at all, so the string evaluates to itself verbatim (fourth
conjunct). -/
theorem claim_C10_interpolation_scan :
    (∀ (f : Nat) (s b : List Char),
      InterpSeg.expr b ∈ interpScanF f s → b ≠ [] ∧ '\x7d' ∉ b) ∧
    (∀ body rest : List Char, body ≠ [] → '\x7d' ∉ body →
      findInterpBody ('\x7b' :: (body ++ '\x7d' :: rest)) = some (body, rest)) ∧
    interpMatches "$\x7b \x7ba: 1\x7d \x7d".data =
      [.expr " \x7ba: 1".data, .lit [' '], .lit ['\x7d']] ∧
    (∀ (h : Host) (f : Nat) (ctx : ExecutionContext),
      evalSexpr h (f+12) ctx (.str "a$\x7b\x7db".data none) false =
        .ok (.vStr "a$\x7b\x7db".data)) :=
  ⟨interpScanF_expr_body, findInterpBody_marker, rfl, fun h f ctx => rfl⟩

/-- Witness for C10: the scan of `"x$\x7bq\x7d"` matches body `"q"`, which
is indeed non-empty and brace-free. -/
theorem claim_C10_witness :
    ("q".data ≠ [] ∧ '\x7d' ∉ "q".data) :=
  claim_C10_interpolation_scan.1 4 "x$\x7bq\x7d".data "q".data (by decide)

/-- Walking forward over a character list advances the byte index by its
length. -/
theorem forward_fold_index (l : List Char) : ∀ p : Pos,
    (l.foldl Pos.forward_via p).index = p.index + l.length := by
  induction l with
  | nil => intro p; simp
  | cons c cs ih =>
    intro p
    simp only [List.foldl, ih, Pos.forward_via]
    split <;> simp <;> omega

/-- Walking backward over a newline-free character list succeeds and
retreats the byte index by its length. -/
theorem backward_foldM_total (l : List Char) : ∀ p : Pos, (∀ c ∈ l, c ≠ '\n') →
    ∃ q : Pos, l.foldlM Pos.backward_via p = .ok q ∧ q.index = p.index - l.length := by
  induction l with
  | nil => intro p _; exact ⟨p, rfl, by simp⟩
  | cons c cs ih =>
    intro p hnl
    have hc : c ≠ '\n' := hnl c (List.mem_cons_self c cs)
    obtain ⟨q, hq, hqi⟩ := ih ⟨p.line, p.col - 1, p.index - 1⟩
      (fun d hd => hnl d (List.mem_cons_of_mem c hd))
    refine ⟨q, ?_, by simp [hqi]; omega⟩
    simp only [List.foldlM, Pos.backward_via, if_neg hc]
    exact hq

/-- A normalised Python slice offset lies within `[0, length]`. -/
theorem pySliceNorm_range (L v : Int) (hL : 0 ≤ L) :
    0 ≤ pySliceNorm L v ∧ pySliceNorm L v ≤ L := by
  simp only [pySliceNorm]
  split <;> split <;> omega

/-- The success case of `Span.__getitem__`: for a length-correct span and
normalised offsets `i ≤ j`, provided the dropped suffix contains no
newline, slicing succeeds with the Python-sliced raw text, the
forward-walked start and the backward-walked end. -/
theorem spanSlice_ok (s : Span) (kstart kstop : Option Int) (soN eoN : Nat)
    (hwf : s.wf)
    (hso : soN = (pySliceNorm (s.raw.length : Int) (kstart.getD 0)).toNat)
    (heo : eoN = (pySliceNorm (s.raw.length : Int) (kstop.getD (s.raw.length : Int))).toNat)
    (hle : soN ≤ eoN)
    (hnl : '\n' ∉ s.raw.drop eoN) :
    ∃ p : Pos,
      ((s.raw.drop eoN).reverse.foldlM Pos.backward_via s.endP = .ok p) ∧
      Span.slice s kstart kstop =
        .ok ⟨(s.raw.take soN).foldl Pos.forward_via s.start, p,
             (s.raw.drop soN).take (eoN - soN)⟩ := by
  have hLnn : (0 : Int) ≤ (s.raw.length : Int) := by positivity
  have hsoL : soN ≤ s.raw.length := by
    have := pySliceNorm_range (s.raw.length : Int) (kstart.getD 0) hLnn
    omega
  have heoL : eoN ≤ s.raw.length := by
    have := pySliceNorm_range (s.raw.length : Int) (kstop.getD (s.raw.length : Int)) hLnn
    omega
  obtain ⟨p, hp, hpi⟩ := backward_foldM_total (s.raw.drop eoN).reverse s.endP
    (fun c hc => by
      intro hcn
      exact hnl (hcn ▸ (List.mem_reverse.mp hc)))
  refine ⟨p, hp, ?_⟩
  simp only [Span.slice, ← hso, ← heo, hp]
  rw [exBind_ok]
  have hlen : (((s.raw.drop soN).take (eoN - soN)).length : Int) =
      p.index - ((s.raw.take soN).foldl Pos.forward_via s.start).index := by
    rw [forward_fold_index]
    rw [hpi]
    simp [List.length_take, List.length_drop, List.length_reverse]
    have hwf2 := hwf
    simp only [Span.wf] at hwf2
    omega
  rw [if_pos hlen]
  rfl

/-- C7 (corrected): for a length-correct span and offsets whose normalised
values `i ≤ j` (Python-style negatives and clamping applied by
`pySliceNorm`), provided the dropped suffix `raw[j:]` contains no newline,
`Span.__getitem__` succeeds; its raw text is exactly the Python slice
`raw[i:j]`, its start is the forward walk from `s.start` over the dropped
head `raw[:i]`, and its end is the backward walk from `s.end` over the
dropped tail. (Without the newline proviso the slice raises, which is the
counterexample to the claim as stated.) -/
theorem claim_C7_slice (s : Span) (kstart kstop : Option Int) (soN eoN : Nat)
    (hwf : s.wf)
    (hso : soN = (pySliceNorm (s.raw.length : Int) (kstart.getD 0)).toNat)
    (heo : eoN = (pySliceNorm (s.raw.length : Int) (kstop.getD (s.raw.length : Int))).toNat)
    (hle : soN ≤ eoN)
    (hnl : '\n' ∉ s.raw.drop eoN) :
    ∃ p : Pos,
      ((s.raw.drop eoN).reverse.foldlM Pos.backward_via s.endP = .ok p) ∧
      Span.slice s kstart kstop =
        .ok ⟨(s.raw.take soN).foldl Pos.forward_via s.start, p,
             (s.raw.drop soN).take (eoN - soN)⟩ :=
  spanSlice_ok s kstart kstop soN eoN hwf hso heo hle hnl


/-- Witness for C7: slicing `spanAbc[1:]` succeeds with raw `"bc"`, the
forward-walked start and the (empty) backward-walked end. -/
theorem claim_C7_witness :
    ∃ p : Pos,
      ((spanAbc.raw.drop 3).reverse.foldlM Pos.backward_via spanAbc.endP = .ok p) ∧
      Span.slice spanAbc (some 1) none =
        .ok ⟨(spanAbc.raw.take 1).foldl Pos.forward_via spanAbc.start, p,
             (spanAbc.raw.drop 1).take (3 - 1)⟩ :=
  claim_C7_slice spanAbc (some 1) none 1 3 (by decide) (by decide) (by decide)
    (by decide) (by decide)


/-- Counterexample for C7 as stated: slicing `spanNl[0:1]` — offsets that
are perfectly valid for its raw text — raises `ValueError`, because the
backward walk from the end crosses the dropped newline. -/
theorem claim_C7_counterexample :
    spanNl.wf ∧
    Span.slice spanNl (some 0) (some 1) =
      .error (.valueErr "Cannot move backwards over a newline") :=
  ⟨by decide, by rfl⟩

/-- A cursor whose remaining text starts with `c` is inside the text and
reads `c` as its current character. -/
theorem current_of_drop {s : Inp} {c : Char} {r : List Char}
    (h : s.text.drop s.index = c :: r) : s.index < s.text.length ∧ s.current = c := by
  have hlt : s.index < s.text.length := by
    by_contra hge
    rw [List.drop_eq_nil_of_le (by omega)] at h
    exact List.noConfusion h
  refine ⟨hlt, ?_⟩
  simp only [Inp.current, dif_pos hlt]
  have h2 : s.text.drop s.index = s.text[s.index] :: s.text.drop (s.index+1) :=
    List.drop_eq_getElem_cons hlt
  rw [h] at h2
  injection h2 with h1 _
  rw [List.get_eq_getElem]
  exact h1.symm

/-- Advancing inside the text preserves the text and mark and moves the
index by one. -/
theorem next_drop {s : Inp} (hlt : s.index < s.text.length) :
    s.next.text = s.text ∧ s.next.index = s.index + 1 ∧
    s.next.markIndex = s.markIndex := by
  simp only [Inp.next, if_pos hlt]
  split <;> simp

/-- The terminator search is unaffected by a quote-free chunk in front. -/
theorem rawTerm_skip (tag : List Char) : ∀ (l r : List Char), (∀ c ∈ l, c ≠ '"') →
    rawTerm tag (l ++ r) = (rawTerm tag r).map (· + l.length) := by
  intro l
  induction l with
  | nil => intro r _; simp
  | cons c cs ih =>
    intro r hq
    have hc : c ≠ '"' := hq c (List.mem_cons_self c cs)
    simp only [List.cons_append, rawTerm]
    rw [if_neg (by simp [hc])]
    simp only [List.append_eq]
    rw [ih r (fun d hd => hq d (List.mem_cons_of_mem c hd))]
    cases rawTerm tag r <;> simp <;> omega

/-- When the tag is exactly next in the input, the terminator-matching loop
consumes it entirely. -/
theorem tagScan_full (tag : List Char) : ∀ s : Inp, EOSc ∉ tag →
    tag.isPrefixOf (s.text.drop s.index) = true →
    ∃ s2 : Inp, tagScan s tag = (s2, tag.length) ∧ s2.text = s.text ∧
      s2.index = s.index + tag.length ∧ s2.markIndex = s.markIndex := by
  induction tag with
  | nil => intro s _ _; exact ⟨s, rfl, rfl, by simp, rfl⟩
  | cons c rest ih =>
    intro s hE hpre
    cases hd : s.text.drop s.index with
    | nil => rw [hd] at hpre; simp [List.isPrefixOf] at hpre
    | cons d r2 =>
      rw [hd] at hpre
      simp only [List.isPrefixOf] at hpre
      have hdc : d = c ∧ rest.isPrefixOf r2 = true := by
        by_cases hcd : c = d
        · subst hcd; simpa using hpre
        · simp [beq_iff_eq, hcd, Ne.symm hcd] at hpre
      obtain ⟨hdc1, hpre2⟩ := hdc
      subst hdc1
      obtain ⟨hlt, hcur⟩ := current_of_drop hd
      obtain ⟨ht, hi, hm⟩ := next_drop hlt
      have hd2 : s.next.text.drop s.next.index = r2 := by
        rw [ht, hi]
        have := List.drop_eq_getElem_cons hlt
        rw [this] at hd
        injection hd
      obtain ⟨s2, hscan, h2t, h2i, h2m⟩ := ih s.next
        (fun hmem => hE (List.mem_cons_of_mem _ hmem)) (hd2 ▸ hpre2)
      refine ⟨s2, ?_, by rw [h2t, ht], by rw [h2i, hi]; simp; omega, by rw [h2m, hm]⟩
      simp only [tagScan, if_pos hcur, hscan]
      simp

/-- When the tag is not next in the input, the terminator-matching loop
stops after the longest matching prefix, which it consumes. -/
theorem tagScan_partial (tag : List Char) : ∀ s : Inp, EOSc ∉ tag →
    tag.isPrefixOf (s.text.drop s.index) = false →
    ∃ (s2 : Inp) (n : Nat), tagScan s tag = (s2, n) ∧ n < tag.length ∧
      tag.take n = (s.text.drop s.index).take n ∧ s2.text = s.text ∧
      s2.index = s.index + n ∧ s2.markIndex = s.markIndex := by
  induction tag with
  | nil => intro s _ hpre; simp [List.isPrefixOf] at hpre
  | cons c rest ih =>
    intro s hE hpre
    by_cases hcur : s.current = c
    · have hcE : c ≠ EOSc := fun hcon => hE (hcon ▸ List.mem_cons_self c rest)
      have hlt : s.index < s.text.length := by
        by_contra hge
        have : s.current = EOSc := by simp [Inp.current, dif_neg (by omega : ¬ s.index < s.text.length)]
        exact hcE (hcur.symm.trans this)
      have hd : s.text.drop s.index = c :: (s.text.drop (s.index + 1)) := by
        have h2 := List.drop_eq_getElem_cons hlt
        rw [h2]
        congr 1
        have := (current_of_drop h2).2
        rw [hcur] at this
        exact this.symm
      obtain ⟨ht, hi, hm⟩ := next_drop hlt
      have hd2 : s.next.text.drop s.next.index = s.text.drop (s.index + 1) := by
        rw [ht, hi]
      have hpre2 : rest.isPrefixOf (s.next.text.drop s.next.index) = false := by
        rw [hd2]
        by_contra hcon
        have hcon2 : rest.isPrefixOf (s.text.drop (s.index+1)) = true := by
          cases hx : rest.isPrefixOf (s.text.drop (s.index+1)) with
          | true => rfl
          | false => exact absurd hx hcon
        rw [hd] at hpre
        simp [List.isPrefixOf, hcon2] at hpre
      obtain ⟨s2, n, hscan, hn, htk, h2t, h2i, h2m⟩ := ih s.next
        (fun hmem => hE (List.mem_cons_of_mem _ hmem)) hpre2
      refine ⟨s2, n+1, ?_, by simp; omega, ?_, by rw [h2t, ht],
        by rw [h2i, hi]; omega, by rw [h2m, hm]⟩
      · simp only [tagScan, if_pos hcur, hscan]
      · rw [hd]
        simp only [List.take_succ_cons]
        congr 1
        rw [htk, hd2]
    · refine ⟨s, 0, ?_, by simp, by simp, rfl, by simp, rfl⟩
      simp only [tagScan, if_neg hcur]

/-- The content loop of `_parse_raw_string` against its terminator
specification: when the remaining input has a terminator (a quote followed
by the full tag) at position `k` and no NUL before it, the loop returns the
content before the terminator and consumes through the end of the tag. -/
theorem parseRawLoop_term (tag : List Char) (hE : EOSc ∉ tag) (hQ : '"' ∉ tag) :
    ∀ (f : Nat) (s : Inp) (acc : List Char) (k : Nat),
      rawTerm tag (s.text.drop s.index) = some k →
      EOSc ∉ (s.text.drop s.index).take k →
      k + 2 ≤ f →
      ∃ s2 : Inp, parseRawLoop f s tag acc =
          .ok (acc ++ (s.text.drop s.index).take k, s2) ∧
        s2.text = s.text ∧ s2.index = s.index + (k + 1 + tag.length) ∧
        s2.markIndex = s.markIndex := by
  intro f
  induction f with
  | zero => intro s acc k _ _ hf; omega
  | succ f ih =>
    intro s acc k hterm hnE hf
    cases hd : s.text.drop s.index with
    | nil => rw [hd] at hterm; simp [rawTerm] at hterm
    | cons c r2 =>
      rw [hd] at hterm hnE
      obtain ⟨hlt, hcur⟩ := current_of_drop hd
      obtain ⟨ht1, hi1, hm1⟩ := next_drop hlt
      have hd2 : s.next.text.drop s.next.index = r2 := by
        rw [ht1, hi1]
        have h2 : s.text.drop s.index = s.text[s.index] :: s.text.drop (s.index+1) :=
          List.drop_eq_getElem_cons hlt
        rw [hd] at h2
        injection h2 with _ h3
        exact h3.symm
      by_cases hcq : c = '"'
      · subst hcq
        have hne : s.current ≠ EOSc := by rw [hcur]; decide
        rw [parseRawLoop, if_neg hne, if_neg (by rw [hcur]; simp)]
        by_cases htag : tag = []
        · subst htag
          simp only [rawTerm, List.isPrefixOf] at hterm
          simp at hterm
          subst hterm
          refine ⟨s.next, ?_, ht1, by rw [hi1]; simp, hm1⟩
          simp
        · rw [if_neg htag]
          by_cases hpre : tag.isPrefixOf r2 = true
          · have hk0 : k = 0 := by
              rw [rawTerm, if_pos ⟨rfl, hpre⟩] at hterm
              injection hterm with h4
              omega
            subst hk0
            obtain ⟨s2, hscan, h2t, h2i, h2m⟩ := tagScan_full tag s.next hE (hd2 ▸ hpre)
            simp only [hscan, if_pos rfl]
            exact ⟨s2, by simp, by rw [h2t, ht1],
              by rw [h2i, hi1]; omega, by rw [h2m, hm1]⟩
          · have hpre2 : tag.isPrefixOf r2 = false := by
              cases hx : tag.isPrefixOf r2 with
              | true => exact absurd hx hpre
              | false => rfl
            obtain ⟨k2, hterm2, hkk⟩ : ∃ k2, rawTerm tag r2 = some k2 ∧ k = k2 + 1 := by
              rw [rawTerm, if_neg (by simp [hpre2])] at hterm
              cases hx : rawTerm tag r2 with
              | none => rw [hx] at hterm; simp at hterm
              | some k2 => rw [hx] at hterm; simp at hterm; exact ⟨k2, rfl, by omega⟩
            obtain ⟨s2, n, hscan, hn, htk, h2t, h2i, h2m⟩ :=
              tagScan_partial tag s.next hE (by rw [hd2]; exact hpre2)
            simp only [hscan, if_neg (by omega : ¬ n = tag.length)]
            have htkr : tag.take n = r2.take n := by rw [htk, hd2]
            have hlen_take : (r2.take n).length = n := by
              have hx : (tag.take n).length = n := by simp; omega
              rw [htkr] at hx
              simpa using hx
            have hnoq : ∀ c2 ∈ r2.take n, c2 ≠ '"' := by
              intro c2 hc2
              rw [← htkr] at hc2
              exact fun hcon => hQ (hcon ▸ (List.mem_of_mem_take hc2))
            have hsplit : r2.take n ++ r2.drop n = r2 := List.take_append_drop n r2
            have hterm3 : rawTerm tag (r2.drop n) = some (k2 - n) ∧ n ≤ k2 := by
              have hz := rawTerm_skip tag (r2.take n) (r2.drop n) hnoq
              rw [hsplit, hterm2, hlen_take] at hz
              cases hx : rawTerm tag (r2.drop n) with
              | none => rw [hx] at hz; simp at hz
              | some m =>
                rw [hx] at hz
                simp at hz
                constructor
                · congr 1; omega
                · omega
            have hrest2 : s2.text.drop s2.index = r2.drop n := by
              have hd2b : s.text.drop (s.index + 1) = r2 := by
                rw [← hd2, ht1, hi1]
              rw [h2t, h2i, ht1, hi1, ← hd2b, List.drop_drop]
            have htake_split : r2.take k2 = r2.take n ++ (r2.drop n).take (k2 - n) := by
              have h5 : r2.take k2 = r2.take (n + (k2 - n)) := by
                congr 1
                omega
              rw [h5, List.take_add]
            have hnE2 : EOSc ∉ (s2.text.drop s2.index).take (k2 - n) := by
              rw [hrest2]
              intro hcon
              apply hnE
              rw [hkk, List.take_succ_cons]
              exact List.mem_cons_of_mem _ (htake_split ▸ List.mem_append_right _ hcon)
            obtain ⟨s3, hrun, h3t, h3i, h3m⟩ := ih s2 (acc ++ ['"'] ++ tag.take n) (k2 - n)
              (by rw [hrest2]; exact hterm3.1) hnE2 (by omega)
            have hnk2 := hterm3.2
            refine ⟨s3, ?_, by rw [h3t, h2t, ht1],
              by rw [h3i, h2i, hi1]; omega, by rw [h3m, h2m, hm1]⟩
            rw [hrun, hrest2]
            rw [hkk, List.take_succ_cons, htake_split, ← htkr]
            simp [List.append_assoc]
      · obtain ⟨k2, hterm2, hkk⟩ : ∃ k2, rawTerm tag r2 = some k2 ∧ k = k2 + 1 := by
          rw [rawTerm, if_neg (by simp [hcq])] at hterm
          cases hx : rawTerm tag r2 with
          | none => rw [hx] at hterm; simp at hterm
          | some k2 => rw [hx] at hterm; simp at hterm; exact ⟨k2, rfl, by omega⟩
        have hcE : c ≠ EOSc := by
          intro hcon
          apply hnE
          rw [hkk, List.take_succ_cons]
          exact hcon ▸ List.mem_cons_self _ _
        rw [parseRawLoop, if_neg (by rw [hcur]; exact hcE),
          if_pos (by rw [hcur]; exact hcq), hcur]
        obtain ⟨s2, hrun, h2t, h2i, h2m⟩ := ih s.next (acc ++ [c]) k2
          (by rw [hd2]; exact hterm2)
          (by rw [hd2]; intro hcon; apply hnE; rw [hkk, List.take_succ_cons]
              exact List.mem_cons_of_mem _ hcon)
          (by omega)
        refine ⟨s2, ?_, by rw [h2t, ht1],
          by rw [h2i, hi1]; omega, by rw [h2m, hm1]⟩
        rw [hrun, hd2, hkk, List.take_succ_cons]
        simp [List.append_assoc]


/-- C6 (confirmed): the raw-string content loop accumulates characters
until the first quote followed by exactly the tag — a quote not followed by
the full tag is consumed (with the partially matched tag prefix) as literal
content and scanning continues, as expressed by the first-terminator
specification `rawTerm` (first conjunct); in particular parsing
`#x"b""x c` yields the string value `b"` followed by the atom `c` (second
conjunct). -/
theorem claim_C6_raw_string :
    (∀ (tag : List Char), EOSc ∉ tag → '"' ∉ tag →
      ∀ (f : Nat) (s : Inp) (acc : List Char) (k : Nat),
        rawTerm tag (s.text.drop s.index) = some k →
        EOSc ∉ (s.text.drop s.index).take k →
        k + 2 ≤ f →
        ∃ s2 : Inp, parseRawLoop f s tag acc =
            .ok (acc ++ (s.text.drop s.index).take k, s2) ∧
          s2.text = s.text ∧ s2.index = s.index + (k + 1 + tag.length) ∧
          s2.markIndex = s.markIndex) ∧
    (sexpr "#x\"b\"\"x c".data).map SDoc.exprs =
      .ok [.str ['b', '"'] none, .atom ['c'] none] :=
  ⟨parseRawLoop_term, rfl⟩

/-- Witness for C6: with tag `x` and remaining content `b""x c` the loop
returns content `b"` (the first quote is followed by a second quote, not
the tag, and is kept as literal text) and stops after the `"x` terminator. -/
theorem claim_C6_witness :
    ∃ s2 : Inp,
      parseRawLoop 6 ⟨"#x\"b\"\"x c".data, 3, 1, 4, 0, 1, 1⟩ ['x'] [] =
        .ok ([] ++ (("#x\"b\"\"x c".data).drop 3).take 2, s2) ∧
      s2.text = "#x\"b\"\"x c".data ∧ s2.index = 3 + (2 + 1 + 1) ∧
      s2.markIndex = 0 :=
  claim_C6_raw_string.1 ['x'] (by decide) (by decide) 6
    ⟨"#x\"b\"\"x c".data, 3, 1, 4, 0, 1, 1⟩ [] 2 (by decide) (by decide) (by decide)


-- ## subT algebra
theorem subT_self (t : List Char) (i : Nat) : subT t i i = [] := by
  simp [subT]

theorem subT_len (t : List Char) (i j : Nat) (hij : i ≤ j) (hj : j ≤ t.length) :
    (subT t i j).length = j - i := by
  simp [subT, List.length_take, List.length_drop]
  omega

theorem subT_append (t : List Char) (i j k : Nat) (hij : i ≤ j) (hjk : j ≤ k)
    (hj : j ≤ t.length) :
    subT t i j ++ subT t j k = subT t i k := by
  simp only [subT]
  have h1 : t.drop i = (t.drop i).take (j - i) ++ (t.drop i).drop (j - i) :=
    (List.take_append_drop _ _).symm
  have h2 : (t.drop i).drop (j - i) = t.drop j := by
    rw [List.drop_drop]
    congr 1
    omega
  have h3 : (t.drop i).take (k - i) =
      (t.drop i).take (j - i) ++ ((t.drop i).drop (j - i)).take (k - j) := by
    have h4 : k - i = (j - i) + (k - j) := by omega
    rw [h4, List.take_add]
  rw [h3, h2]

theorem subT_all (t : List Char) : subT t 0 t.length = t := by
  simp [subT]

-- ## cursor lemmas
theorem current_ne_EOS_lt {s : Inp} (h : s.current ≠ EOSc) : s.index < s.text.length := by
  by_contra hge
  exact h (by simp [Inp.current, dif_neg hge])

theorem pyIsSpace_ne_EOS {c : Char} (h : pyIsSpace c = true) : c ≠ EOSc := by
  intro hcon
  subst hcon
  revert h
  decide

theorem next_state (s : Inp) :
    s.next.text = s.text ∧ s.next.markIndex = s.markIndex ∧
    s.next.markLine = s.markLine ∧ s.next.markCol = s.markCol ∧
    s.index ≤ s.next.index ∧ (s.index < s.text.length → s.next.index = s.index + 1) ∧
    (s.index ≤ s.text.length → s.next.index ≤ s.text.length) := by
  simp only [Inp.next]
  split
  · split <;> simp <;> omega
  · simp; omega

theorem capture_state (s : Inp) :
    (s.capture.1.raw = subT s.text s.markIndex s.index) ∧
    s.capture.2.text = s.text ∧ s.capture.2.index = s.index ∧
    s.capture.2.markIndex = s.index ∧ s.capture.2.markLine = s.line ∧
    s.capture.2.markCol = s.col ∧ s.capture.2.line = s.line ∧ s.capture.2.col = s.col := by
  simp [Inp.capture]

theorem capture_self {s : Inp} (h1 : s.markIndex = s.index) (h2 : s.markLine = s.line)
    (h3 : s.markCol = s.col) : s.capture.2 = s := by
  cases s
  simp_all [Inp.capture]

theorem current_congr {s1 s2 : Inp} (ht : s1.text = s2.text)
    (hi : s1.index = s2.index) : s1.current = s2.current := by
  simp [Inp.current, ht, hi]

theorem current_get {s : Inp} (h : s.index < s.text.length) :
    s.current = s.text.get ⟨s.index, h⟩ := by
  simp [Inp.current, dif_pos h]

theorem skipLine_state : ∀ (f : Nat) (s s2 : Inp), skipLine f s = .ok s2 →
    s2.text = s.text ∧ s2.markIndex = s.markIndex ∧ s2.markLine = s.markLine ∧
    s2.markCol = s.markCol ∧ s.index ≤ s2.index ∧
    (s.index ≤ s.text.length → s2.index ≤ s.text.length) := by
  intro f
  induction f with
  | zero => intro s s2 h; exact absurd h (by simp [skipLine])
  | succ f ih =>
    intro s s2 h
    rw [skipLine] at h
    split at h
    · split at h
      · injection h with h1
        subst h1
        obtain ⟨t, m1, m2, m3, mono, lt, le⟩ := next_state s
        exact ⟨t, m1, m2, m3, mono, le⟩
      · injection h with h1
        subst h1
        exact ⟨rfl, rfl, rfl, rfl, le_refl _, fun hx => hx⟩
    · obtain ⟨t, m1, m2, m3, mono, le⟩ := ih s.next s2 h
      obtain ⟨t2, n1, n2, n3, mono2, lt2, le2⟩ := next_state s
      refine ⟨t.trans t2, m1.trans n1, m2.trans n2, m3.trans n3, by omega, ?_⟩
      intro hx
      have h5 : s.next.index ≤ s.next.text.length := by rw [t2]; exact le2 hx
      have h6 := le h5
      rw [t2] at h6
      exact h6

theorem skipWS_spec : ∀ (f : Nat) (s : Inp) (sp : Span) (sE : Inp),
    s.markIndex ≤ s.index → s.index ≤ s.text.length →
    skipWhitespace f s = .ok (sp, sE) →
    sE.text = s.text ∧ PreM sE ∧ s.index ≤ sE.index ∧ PostWS sE ∧
    sp.raw = subT s.text s.markIndex sE.index := by
  intro f
  induction f with
  | zero => intro s sp sE _ _ h; exact absurd h (by simp [skipWhitespace])
  | succ f ih =>
    intro s sp sE hm hlen h
    rw [skipWhitespace] at h
    split at h
    · -- current = EOSc : break, capture
      injection h with h1
      obtain ⟨c1, c2, c3, c4, c5, c6, c7, c8⟩ := capture_state s
      rename_i hcur
      have hp1 : s.capture.1 = sp := by rw [h1]
      have hp2 : s.capture.2 = sE := by rw [h1]
      rw [hp1] at c1
      rw [hp2] at c2 c3 c4 c5 c6 c7 c8
      refine ⟨c2, ⟨c4.trans c3.symm, c5.trans c7.symm, c6.trans c8.symm,
        by rw [c3, c2]; exact hlen⟩, by omega, ?_, by rw [c1, c3]⟩
      have hc : sE.current = s.current := current_congr c2 c3
      exact ⟨by rw [hc, hcur]; decide, by rw [hc, hcur]; decide⟩
    · split at h
      · -- whitespace : next and loop
        rename_i hcur hsp
        obtain ⟨t2, n1, n2, n3, mono2, lt2, le2⟩ := next_state s
        have hlt : s.index < s.text.length :=
          current_ne_EOS_lt (pyIsSpace_ne_EOS hsp)
        obtain ⟨e1, e2, e3, e4, e5⟩ := ih s.next sp sE
          (by rw [n1, lt2 hlt]; omega) (by rw [t2]; exact le2 hlen) h
        refine ⟨e1.trans t2, e2, by omega, e4, ?_⟩
        rw [e5, n1, t2]
      · split at h
        · -- comment line
          rename_i hcur hsp hsemi
          cases hsl : skipLine f s with
          | error e => rw [hsl, exBind_error] at h; exact absurd h (by simp)
          | ok s1 =>
            rw [hsl] at h
            simp only [exBind_ok] at h
            obtain ⟨t2, m1, m2, m3, mono2, le2⟩ := skipLine_state f s s1 hsl
            obtain ⟨e1, e2, e3, e4, e5⟩ := ih s1 sp sE
              (by rw [m1]; omega) (by rw [t2]; exact le2 hlen) h
            refine ⟨e1.trans t2, e2, by omega, e4, ?_⟩
            rw [e5, m1, t2]
        · -- not whitespace, not comment : capture
          rename_i hcur hsp hsemi
          injection h with h1
          obtain ⟨c1, c2, c3, c4, c5, c6, c7, c8⟩ := capture_state s
          have hp1 : s.capture.1 = sp := by rw [h1]
          have hp2 : s.capture.2 = sE := by rw [h1]
          rw [hp1] at c1
          rw [hp2] at c2 c3 c4 c5 c6 c7 c8
          refine ⟨c2, ⟨c4.trans c3.symm, c5.trans c7.symm, c6.trans c8.symm,
            by rw [c3, c2]; exact hlen⟩, by omega, ?_, by rw [c1, c3]⟩
          have hc : sE.current = s.current := current_congr c2 c3
          exact ⟨by rw [hc]; simpa using hsp, by rw [hc]; exact hsemi⟩

theorem skipWS_noop (f : Nat) (s : Inp) (r : Span × Inp) (hw : PostWS s)
    (h : skipWhitespace f s = .ok r) : r = s.capture := by
  cases f with
  | zero => exact absurd h (by simp [skipWhitespace])
  | succ f =>
    rw [skipWhitespace] at h
    split at h
    · injection h with h1; exact h1.symm
    · rw [if_neg (by simp [hw.1]), if_neg hw.2] at h
      injection h with h1; exact h1.symm

theorem capture_fst (s : Inp) :
    s.capture.1 = ⟨⟨s.markLine, s.markCol, (s.markIndex : Int)⟩, s.position,
      subT s.text s.markIndex s.index⟩ := rfl

theorem capture_wf (s : Inp) (h1 : s.markIndex ≤ s.index) (h2 : s.index ≤ s.text.length) :
    s.capture.1.wf := by
  rw [capture_fst]
  show ((subT s.text s.markIndex s.index).length : Int) = _
  rw [subT_len s.text s.markIndex s.index h1 h2]
  simp [Inp.position]
  omega

theorem subT_cons (t : List Char) (i j : Nat) (hij : i < j) (hi : i < t.length) :
    subT t i j = t.get ⟨i, hi⟩ :: subT t (i+1) j := by
  simp only [subT]
  rw [List.drop_eq_getElem_cons hi]
  have h2 : j - i = (j - (i+1)) + 1 := by omega
  rw [h2, List.take_succ_cons]
  simp

theorem parseAtomLoop_spec : ∀ (f : Nat) (s : Inp) (acc v : List Char) (sE : Inp),
    s.index ≤ s.text.length →
    parseAtomLoop f s acc = .ok (v, sE) →
    sE.text = s.text ∧ sE.markIndex = s.markIndex ∧ sE.markLine = s.markLine ∧
    sE.markCol = s.markCol ∧ s.index ≤ sE.index ∧ sE.index ≤ s.text.length ∧
    v = acc ++ subT s.text s.index sE.index ∧ atomBoundary sE.current = true := by
  intro f
  induction f with
  | zero => intro s acc v sE _ h; exact absurd h (by simp [parseAtomLoop])
  | succ f ih =>
    intro s acc v sE hlen h
    rw [parseAtomLoop] at h
    split at h
    · rename_i hb
      injection h with h1
      have hv : acc = v := congrArg Prod.fst h1
      have hsE : s = sE := congrArg Prod.snd h1
      subst hv; subst hsE
      exact ⟨rfl, rfl, rfl, rfl, le_refl _, hlen, by rw [subT_self]; simp, hb⟩
    · rename_i hb
      have hEOS : s.current ≠ EOSc := by
        intro hc
        exact hb (by rw [hc]; decide)
      have hlt : s.index < s.text.length := current_ne_EOS_lt hEOS
      obtain ⟨t2, n1, n2, n3, mono2, lt2, le2⟩ := next_state s
      obtain ⟨e1, e2, e3, e4, e5, e6, e7, e8⟩ := ih s.next (acc ++ [s.current]) v sE
        (by rw [t2]; exact le2 hlen) h
      refine ⟨e1.trans t2, e2.trans n1, e3.trans n2, e4.trans n3, by omega,
        by rw [← t2]; exact e6, ?_, e8⟩
      rw [e7, t2, lt2 hlt,
        subT_cons s.text s.index sE.index (by omega) hlt, ← current_get hlt]
      simp

theorem parseAtom_spec (f : Nat) (s : Inp) (e : SExpr) (sE : Inp)
    (hpm : PreM s) (h : parseAtom f s = .ok (e, sE)) :
    POut s.text s.index e sE := by
  cases f with
  | zero => exact absurd h (by simp [parseAtom])
  | succ f =>
    rw [parseAtom] at h
    split at h
    · exact absurd h (by simp)
    · cases hl : parseAtomLoop f s [] with
      | error e2 => rw [hl, exBind_error] at h; exact absurd h (by simp)
      | ok p =>
        obtain ⟨value, sM⟩ := p
        obtain ⟨l1, l2, l3, l4, l5, l6, l7, l8⟩ :=
          parseAtomLoop_spec f s [] value sM hpm.2.2.2 hl
        rcases hcap : sM.capture with ⟨tok, sC⟩
        simp only [hl, exBind_ok, hcap] at h
        cases hw : skipWhitespace f sC with
        | error e2 => rw [hw, exBind_error] at h; exact absurd h (by simp)
        | ok q =>
          obtain ⟨sp, sE2⟩ := q
          simp only [hw, exBind_ok] at h
          injection h with h1
          have he : SExpr.atom value (some ⟨some tok, some sp⟩) = e :=
            congrArg Prod.fst h1
          have hsE : sE2 = sE := congrArg Prod.snd h1
          subst he; subst hsE
          obtain ⟨c1, c2, c3, c4, c5, c6, c7, c8⟩ := capture_state sM
          have hp1 : sM.capture.1 = tok := by rw [hcap]
          have hp2 : sM.capture.2 = sC := by rw [hcap]
          rw [hp1] at c1
          rw [hp2] at c2 c3 c4 c5 c6 c7 c8
          have hmle : sM.markIndex ≤ sM.index := by rw [l2, hpm.1]; omega
          obtain ⟨w1, w2, w3, w4, w5⟩ := skipWS_spec f sC sp sE2
            (by rw [c4, c3]) (by rw [c3, c2, l1]; exact l6) hw
          have hc3w : sM.index ≤ sE2.index := by rw [← c3]; exact w3
          have htokraw : tok.raw = value := by
            rw [c1, l1, l2, hpm.1, l7]; simp
          refine ⟨w1.trans (c2.trans l1), w2, by omega, w4, ?_, ?_⟩
          · show some (tok.raw ++ sp.raw) = some (subT s.text s.index sE2.index)
            rw [c1, w5, c4, c2, l1, l2, hpm.1]
            rw [subT_append s.text s.index sM.index sE2.index (by omega) hc3w l6]
          · exact ⟨tok, sp, rfl, htokraw, by
              have hwf := capture_wf sM hmle (by rw [l1]; exact l6)
              rw [hp1] at hwf
              exact hwf⟩

theorem parseStringLoop_state : ∀ (f : Nat) (s : Inp) (acc v : List Char) (sE : Inp),
    s.index ≤ s.text.length →
    parseStringLoop f s acc = .ok (v, sE) →
    sE.text = s.text ∧ sE.markIndex = s.markIndex ∧ sE.markLine = s.markLine ∧
    sE.markCol = s.markCol ∧ s.index ≤ sE.index ∧ sE.index ≤ s.text.length ∧
    sE.current = '"' := by
  intro f
  induction f with
  | zero => intro s acc v sE _ h; exact absurd h (by simp [parseStringLoop])
  | succ f ih =>
    intro s acc v sE hlen h
    rw [parseStringLoop] at h
    split at h
    · rename_i hq
      injection h with h1
      have hv : acc = v := congrArg Prod.fst h1
      have hsE : s = sE := congrArg Prod.snd h1
      subst hv; subst hsE
      exact ⟨rfl, rfl, rfl, rfl, le_refl _, hlen, hq⟩
    · split at h
      · exact absurd h (by simp)
      · rename_i hq hEOS
        have hlt : s.index < s.text.length := current_ne_EOS_lt hEOS
        obtain ⟨t2, n1, n2, n3, mono2, lt2, le2⟩ := next_state s
        split at h
        · -- escape: s1 = s.next, then s1.next
          simp only [] at h
          obtain ⟨t3, m1, m2, m3, mono3, lt3, le3⟩ := next_state s.next
          have hnn : s.next.next.text = s.text := t3.trans t2
          have hnlen : s.next.next.index ≤ s.text.length := by
            rw [← t2]; apply le3; rw [t2]; exact le2 hlen
          have step : ∀ acc2, parseStringLoop f s.next.next acc2 = .ok (v, sE) →
              sE.text = s.text ∧ sE.markIndex = s.markIndex ∧ sE.markLine = s.markLine ∧
              sE.markCol = s.markCol ∧ s.index ≤ sE.index ∧ sE.index ≤ s.text.length ∧
              sE.current = '"' := by
            intro acc2 h2
            obtain ⟨e1, e2, e3, e4, e5, e6, e7⟩ := ih s.next.next acc2 v sE
              (by rw [hnn]; exact hnlen) h2
            exact ⟨e1.trans hnn, e2.trans (m1.trans n1), e3.trans (m2.trans n2),
              e4.trans (m3.trans n3), by omega, by rw [← hnn]; exact e6, e7⟩
          split at h
          · exact step _ h
          · split at h
            · exact step _ h
            · split at h
              · exact step _ h
              · split at h
                · exact step _ h
                · split at h
                  · exact step _ h
                  · split at h
                    · exact step _ h
                    · exact absurd h (by simp)
        · -- plain character
          obtain ⟨e1, e2, e3, e4, e5, e6, e7⟩ := ih s.next (acc ++ [s.current]) v sE
            (by rw [t2]; exact le2 hlen) h
          exact ⟨e1.trans t2, e2.trans n1, e3.trans n2, e4.trans n3, by omega,
            by rw [← t2]; exact e6, e7⟩

theorem parseString_spec (f : Nat) (s : Inp) (e : SExpr) (sE : Inp)
    (hpm : PreM s) (h : parseString f s = .ok (e, sE)) :
    POut s.text s.index e sE := by
  cases f with
  | zero => exact absurd h (by simp [parseString])
  | succ f =>
    rw [parseString] at h
    split at h
    · exact absurd h (by simp)
    · rename_i hq
      have hq2 : s.current = '"' := not_not.mp hq
      have hEOS : s.current ≠ EOSc := by rw [hq2]; decide
      have hlt : s.index < s.text.length := current_ne_EOS_lt hEOS
      obtain ⟨t2, n1, n2, n3, mono2, lt2, le2⟩ := next_state s
      cases hl : parseStringLoop f s.next [] with
      | error e2 => rw [hl, exBind_error] at h; exact absurd h (by simp)
      | ok p =>
        obtain ⟨value, sM⟩ := p
        obtain ⟨l1, l2, l3, l4, l5, l6, l7⟩ :=
          parseStringLoop_state f s.next [] value sM (by rw [t2]; exact le2 hpm.2.2.2) hl
        -- close quote: sM.next
        have hqEOS : sM.current ≠ EOSc := by rw [l7]; decide
        have hlt2 : sM.index < sM.text.length := current_ne_EOS_lt hqEOS
        obtain ⟨u1, u2, u3, u4, mono4, lt4, le4⟩ := next_state sM
        rcases hcap : sM.next.capture with ⟨tok, sC⟩
        simp only [hl, exBind_ok, hcap] at h
        cases hw : skipWhitespace f sC with
        | error e2 => rw [hw, exBind_error] at h; exact absurd h (by simp)
        | ok q =>
          obtain ⟨sp, sE2⟩ := q
          simp only [hw, exBind_ok] at h
          injection h with h1
          have he : SExpr.str value (some ⟨some tok, some sp⟩) = e :=
            congrArg Prod.fst h1
          have hsE : sE2 = sE := congrArg Prod.snd h1
          subst he; subst hsE
          obtain ⟨c1, c2, c3, c4, c5, c6, c7, c8⟩ := capture_state sM.next
          have hp1 : sM.next.capture.1 = tok := by rw [hcap]
          have hp2 : sM.next.capture.2 = sC := by rw [hcap]
          rw [hp1] at c1
          rw [hp2] at c2 c3 c4 c5 c6 c7 c8
          -- index bookkeeping
          have hNi : sM.next.index = sM.index + 1 := lt4 hlt2
          have hNt : sM.next.text = s.text := u1.trans (l1.trans t2)
          have hNm : sM.next.markIndex = s.index := by
            rw [u2, l2, n1, hpm.1]
          have hNlen : sM.next.index ≤ s.text.length := by
            rw [hNi]; rw [l1.trans t2] at hlt2; omega
          have hmle : sM.next.markIndex ≤ sM.next.index := by
            rw [hNm, hNi]
            have : s.index + 1 ≤ sM.index + 1 := by
              have := lt2 hlt
              omega
            omega
          obtain ⟨w1, w2, w3, w4, w5⟩ := skipWS_spec f sC sp sE2
            (by rw [c4, c3]) (by rw [c3, c2, hNt]; exact hNlen) hw
          have hc3w : sM.next.index ≤ sE2.index := by rw [← c3]; exact w3
          refine ⟨w1.trans (c2.trans hNt), w2, by omega, w4, ?_, trivial⟩
          show some (tok.raw ++ sp.raw) = some (subT s.text s.index sE2.index)
          rw [c1, w5, c4, c2, hNt, hNm]
          rw [subT_append s.text s.index sM.next.index sE2.index (by omega) hc3w hNlen]

theorem parseTagLoop_state : ∀ (f : Nat) (s : Inp) (acc v : List Char) (sE : Inp),
    s.index ≤ s.text.length →
    parseTagLoop f s acc = .ok (v, sE) →
    sE.text = s.text ∧ sE.markIndex = s.markIndex ∧ sE.markLine = s.markLine ∧
    sE.markCol = s.markCol ∧ s.index ≤ sE.index ∧ sE.index ≤ s.text.length := by
  intro f
  induction f with
  | zero => intro s acc v sE _ h; exact absurd h (by simp [parseTagLoop])
  | succ f ih =>
    intro s acc v sE hlen h
    rw [parseTagLoop] at h
    split at h
    · obtain ⟨t2, n1, n2, n3, mono2, lt2, le2⟩ := next_state s
      obtain ⟨e1, e2, e3, e4, e5, e6⟩ := ih s.next (acc ++ [s.current]) v sE
        (by rw [t2]; exact le2 hlen) h
      exact ⟨e1.trans t2, e2.trans n1, e3.trans n2, e4.trans n3, by omega,
        by rw [← t2]; exact e6⟩
    · injection h with h1
      have hv : acc = v := congrArg Prod.fst h1
      have hsE : s = sE := congrArg Prod.snd h1
      subst hv; subst hsE
      exact ⟨rfl, rfl, rfl, rfl, le_refl _, hlen⟩

theorem tagScan_state : ∀ (tag : List Char) (s : Inp),
    (tagScan s tag).1.text = s.text ∧ (tagScan s tag).1.markIndex = s.markIndex ∧
    (tagScan s tag).1.markLine = s.markLine ∧ (tagScan s tag).1.markCol = s.markCol ∧
    s.index ≤ (tagScan s tag).1.index ∧
    (s.index ≤ s.text.length → (tagScan s tag).1.index ≤ s.text.length) := by
  intro tag
  induction tag with
  | nil => intro s; exact ⟨rfl, rfl, rfl, rfl, le_refl _, fun hx => hx⟩
  | cons c rest ih =>
    intro s
    rw [tagScan]
    split
    · rcases h2 : tagScan s.next rest with ⟨s2, n⟩
      obtain ⟨e1, e2, e3, e4, e5, e6⟩ := ih s.next
      simp only [h2] at e1 e2 e3 e4 e5 e6
      obtain ⟨t2, n1, n2, n3, mono2, lt2, le2⟩ := next_state s
      simp only [h2]
      exact ⟨e1.trans t2, e2.trans n1, e3.trans n2, e4.trans n3, by omega,
        fun hx => by rw [← t2]; exact e6 (by rw [t2]; exact le2 hx)⟩
    · exact ⟨rfl, rfl, rfl, rfl, le_refl _, fun hx => hx⟩

theorem parseRawLoop_state : ∀ (f : Nat) (s : Inp) (tag acc v : List Char) (sE : Inp),
    s.index ≤ s.text.length →
    parseRawLoop f s tag acc = .ok (v, sE) →
    sE.text = s.text ∧ sE.markIndex = s.markIndex ∧ sE.markLine = s.markLine ∧
    sE.markCol = s.markCol ∧ s.index ≤ sE.index ∧ sE.index ≤ s.text.length := by
  intro f
  induction f with
  | zero => intro s tag acc v sE _ h; exact absurd h (by simp [parseRawLoop])
  | succ f ih =>
    intro s tag acc v sE hlen h
    rw [parseRawLoop] at h
    split at h
    · exact absurd h (by simp)
    · rename_i hEOS
      have hlt : s.index < s.text.length := current_ne_EOS_lt hEOS
      obtain ⟨t2, n1, n2, n3, mono2, lt2, le2⟩ := next_state s
      split at h
      · -- not a quote: consume
        obtain ⟨e1, e2, e3, e4, e5, e6⟩ := ih s.next tag (acc ++ [s.current]) v sE
          (by rw [t2]; exact le2 hlen) h
        exact ⟨e1.trans t2, e2.trans n1, e3.trans n2, e4.trans n3, by omega,
          by rw [← t2]; exact e6⟩
      · -- quote
        simp only [] at h
        split at h
        · -- empty tag: done at s.next
          injection h with h1
          have hv : acc = v := congrArg Prod.fst h1
          have hsE : s.next = sE := congrArg Prod.snd h1
          subst hv; subst hsE
          exact ⟨t2, n1, n2, n3, mono2, le2 hlen⟩
        · -- scan tag from s.next
          rcases hts : tagScan s.next tag with ⟨s2, count⟩
          obtain ⟨g1, g2, g3, g4, g5, g6⟩ := tagScan_state tag s.next
          simp only [hts] at g1 g2 g3 g4 g5 g6
          have hs2t : s2.text = s.text := g1.trans t2
          have hs2m : s2.markIndex = s.markIndex := g2.trans n1
          have hs2l : s2.markLine = s.markLine := g3.trans n2
          have hs2c : s2.markCol = s.markCol := g4.trans n3
          have hs2len : s2.index ≤ s.text.length := by
            rw [← t2]; exact g6 (by rw [t2]; exact le2 hlen)
          simp only [hts] at h
          split at h
          · injection h with h1
            have hv : acc = v := congrArg Prod.fst h1
            have hsE : s2 = sE := congrArg Prod.snd h1
            subst hv; subst hsE
            exact ⟨hs2t, hs2m, hs2l, hs2c, by omega, hs2len⟩
          · obtain ⟨e1, e2, e3, e4, e5, e6⟩ := ih s2 tag (acc ++ ['"'] ++ tag.take count) v sE
              (by rw [hs2t]; exact hs2len) h
            exact ⟨e1.trans hs2t, e2.trans hs2m, e3.trans hs2l, e4.trans hs2c, by omega,
              by rw [← hs2t]; exact e6⟩

theorem parseRawString_spec (f : Nat) (s : Inp) (e : SExpr) (sE : Inp)
    (hpm : PreM s) (h : parseRawString f s = .ok (e, sE)) :
    POut s.text s.index e sE := by
  cases f with
  | zero => exact absurd h (by simp [parseRawString])
  | succ f =>
    rw [parseRawString] at h
    split at h
    · exact absurd h (by simp)
    · rename_i hh
      have hh2 : s.current = '#' := not_not.mp hh
      have hEOS : s.current ≠ EOSc := by rw [hh2]; decide
      have hlt : s.index < s.text.length := current_ne_EOS_lt hEOS
      obtain ⟨t2, n1, n2, n3, mono2, lt2, le2⟩ := next_state s
      cases ht : parseTagLoop f s.next [] with
      | error e2 => rw [ht, exBind_error] at h; exact absurd h (by simp)
      | ok p =>
        obtain ⟨tag, sT⟩ := p
        obtain ⟨a1, a2, a3, a4, a5, a6⟩ :=
          parseTagLoop_state f s.next [] tag sT (by rw [t2]; exact le2 hpm.2.2.2) ht
        simp only [ht, exBind_ok] at h
        split at h
        · exact absurd h (by simp)
        · rename_i hq
          have hq2 : sT.current = '"' := not_not.mp hq
          have hqEOS : sT.current ≠ EOSc := by rw [hq2]; decide
          have hlt2 : sT.index < sT.text.length := current_ne_EOS_lt hqEOS
          obtain ⟨u1, u2, u3, u4, mono4, lt4, le4⟩ := next_state sT
          have hsTt : sT.text = s.text := a1.trans t2
          cases hrl : parseRawLoop f sT.next tag [] with
          | error e2 => rw [hrl, exBind_error] at h; exact absurd h (by simp)
          | ok p2 =>
            obtain ⟨value, sM⟩ := p2
            have hsTnlen : sT.next.index ≤ sT.next.text.length := by
              rw [u1]; exact le4 (le_of_lt hlt2)
            obtain ⟨l1, l2, l3, l4, l5, l6⟩ :=
              parseRawLoop_state f sT.next tag [] value sM hsTnlen hrl
            rcases hcap : sM.capture with ⟨tok, sC⟩
            simp only [hrl, exBind_ok, hcap] at h
            cases hw : skipWhitespace f sC with
            | error e2 => rw [hw, exBind_error] at h; exact absurd h (by simp)
            | ok q =>
              obtain ⟨sp, sE2⟩ := q
              simp only [hw, exBind_ok] at h
              injection h with h1
              have he : SExpr.str value (some ⟨some tok, some sp⟩) = e :=
                congrArg Prod.fst h1
              have hsE : sE2 = sE := congrArg Prod.snd h1
              subst he; subst hsE
              obtain ⟨c1, c2, c3, c4, c5, c6, c7, c8⟩ := capture_state sM
              have hp1 : sM.capture.1 = tok := by rw [hcap]
              have hp2 : sM.capture.2 = sC := by rw [hcap]
              rw [hp1] at c1
              rw [hp2] at c2 c3 c4 c5 c6 c7 c8
              have hMt : sM.text = s.text := l1.trans (u1.trans hsTt)
              have hMm : sM.markIndex = s.index := by
                rw [l2, u2, a2, n1, hpm.1]
              have hMlen : sM.index ≤ s.text.length := by
                rw [← hsTt, ← u1]; exact l6
              have hMge : s.index ≤ sM.index := by
                have h5 : sT.next.index ≤ sM.index := l5
                omega
              have hmle : sM.markIndex ≤ sM.index := by rw [hMm]; exact hMge
              obtain ⟨w1, w2, w3, w4, w5⟩ := skipWS_spec f sC sp sE2
                (by rw [c4, c3]) (by rw [c3, c2, hMt]; exact hMlen) hw
              have hc3w : sM.index ≤ sE2.index := by rw [← c3]; exact w3
              refine ⟨w1.trans (c2.trans hMt), w2, by omega, w4, ?_, trivial⟩
              show some (tok.raw ++ sp.raw) = some (subT s.text s.index sE2.index)
              rw [c1, w5, c4, c2, hMt, hMm]
              rw [subT_append s.text s.index sM.index sE2.index hMge hc3w hMlen]

theorem parseMapColon_spec (f : Nat) (s : Inp) (key key2 : SExpr) (colon : TokenSpans)
    (sE : Inp) (hpm : PreM s)
    (h : parseMapColon f s key = .ok (key2, colon, sE)) :
    key2 = key ∧ sE.text = s.text ∧ PreM sE ∧ s.index ≤ sE.index ∧ PostWS sE ∧
    colon.render = subT s.text s.index sE.index := by
  unfold parseMapColon at h
  split at h
  · exact absurd h (by simp)
  · rename_i hc
    have hc2 : s.current = ':' := not_not.mp hc
    have hEOS : s.current ≠ EOSc := by rw [hc2]; decide
    have hlt : s.index < s.text.length := current_ne_EOS_lt hEOS
    obtain ⟨t2, n1, n2, n3, mono2, lt2, le2⟩ := next_state s
    rcases hcap : s.next.capture with ⟨tok, sC⟩
    simp only [hcap] at h
    cases hw : skipWhitespace f sC with
    | error e2 => rw [hw, exBind_error] at h; exact absurd h (by simp)
    | ok q =>
      obtain ⟨sp, sE2⟩ := q
      simp only [hw, exBind_ok] at h
      injection h with h1
      have hk : key = key2 := congrArg Prod.fst h1
      have h2 := congrArg Prod.snd h1
      have hcol : (⟨some tok, some sp⟩ : TokenSpans) = colon := congrArg Prod.fst h2
      have hsE : sE2 = sE := congrArg Prod.snd h2
      subst hk; subst hcol; subst hsE
      obtain ⟨c1, c2, c3, c4, c5, c6, c7, c8⟩ := capture_state s.next
      have hp1 : s.next.capture.1 = tok := by rw [hcap]
      have hp2 : s.next.capture.2 = sC := by rw [hcap]
      rw [hp1] at c1
      rw [hp2] at c2 c3 c4 c5 c6 c7 c8
      have hNi : s.next.index = s.index + 1 := lt2 hlt
      have hNm : s.next.markIndex = s.index := by rw [n1, hpm.1]
      have hNlen : s.next.index ≤ s.text.length := by rw [hNi]; omega
      obtain ⟨w1, w2, w3, w4, w5⟩ := skipWS_spec f sC sp sE2
        (by rw [c4, c3]) (by rw [c3, c2, t2]; exact hNlen) hw
      have hc3w : s.next.index ≤ sE2.index := by rw [← c3]; exact w3
      refine ⟨rfl, w1.trans (c2.trans t2), w2, by omega, w4, ?_⟩
      show tok.raw ++ sp.raw = subT s.text s.index sE2.index
      rw [c1, w5, c4, c2, t2, hNm]
      rw [subT_append s.text s.index s.next.index sE2.index (by omega) hc3w hNlen]

theorem commaSkip_state (s1 : Inp) (h1 : s1.index ≤ s1.text.length) :
    (if s1.current = ',' then s1.next else s1).text = s1.text ∧
    (if s1.current = ',' then s1.next else s1).markIndex = s1.markIndex ∧
    s1.index ≤ (if s1.current = ',' then s1.next else s1).index ∧
    (if s1.current = ',' then s1.next else s1).index ≤ s1.text.length := by
  split
  · obtain ⟨t, m1, _, _, mono, _, le⟩ := next_state s1
    exact ⟨t, m1, mono, le h1⟩
  · exact ⟨rfl, rfl, le_refl _, h1⟩

theorem renderItems_snoc : ∀ (vals : List SExpr) (seps : List TokenSpans) (v : SExpr)
    (sep : TokenSpans) (r rv : List Char),
    vals.length = seps.length →
    SExpr.renderItems vals (some seps) = some r →
    v.render = some rv →
    SExpr.renderItems (vals ++ [v]) (some (seps ++ [sep])) =
      some (r ++ (rv ++ sep.render)) := by
  intro vals
  induction vals with
  | nil =>
    intro seps v sep r rv hl hr hv
    have hs : seps = [] := List.length_eq_zero.mp hl.symm
    subst hs
    simp only [SExpr.renderItems] at hr
    have hr2 : r = [] := by
      injection hr with h1
      exact h1.symm
    subst hr2
    simp [SExpr.renderItems, hv]
  | cons x xs ih =>
    intro seps v sep r rv hl hr hv
    cases seps with
    | nil => simp at hl
    | cons t ts =>
      simp only [SExpr.renderItems] at hr
      cases hx : x.render with
      | none => rw [hx] at hr; simp at hr
      | some rx =>
        rw [hx] at hr
        cases hrest : SExpr.renderItems xs (some ts) with
        | none => rw [hrest] at hr; simp at hr
        | some rxs =>
          rw [hrest] at hr
          have hreq : rx ++ t.render ++ rxs = r := by
            injection hr
          have hl2 : xs.length = ts.length := by
            simp at hl
            exact hl
          have hih := ih ts v sep rxs rv hl2 hrest hv
          show SExpr.renderItems (x :: (xs ++ [v])) (some (t :: (ts ++ [sep]))) = _
          simp only [SExpr.renderItems, hx, hih, Option.some_bind, Option.bind_some]
          rw [← hreq]
          simp [List.append_assoc]

theorem renderFields_snoc : ∀ (flds : List SMapField) (seps : List TokenSpans)
    (fld : SMapField) (sep : TokenSpans) (r rf : List Char),
    flds.length = seps.length →
    SExpr.renderFields flds (some seps) = some r →
    fld.render = some rf →
    SExpr.renderFields (flds ++ [fld]) (some (seps ++ [sep])) =
      some (r ++ (rf ++ sep.render)) := by
  intro flds
  induction flds with
  | nil =>
    intro seps fld sep r rf hl hr hv
    have hs : seps = [] := List.length_eq_zero.mp hl.symm
    subst hs
    simp only [SExpr.renderFields] at hr
    have hr2 : r = [] := by
      injection hr with h1
      exact h1.symm
    subst hr2
    simp [SExpr.renderFields, hv]
  | cons x xs ih =>
    intro seps fld sep r rf hl hr hv
    cases seps with
    | nil => simp at hl
    | cons t ts =>
      simp only [SExpr.renderFields] at hr
      cases hx : x.render with
      | none => rw [hx] at hr; simp at hr
      | some rx =>
        rw [hx] at hr
        cases hrest : SExpr.renderFields xs (some ts) with
        | none => rw [hrest] at hr; simp at hr
        | some rxs =>
          rw [hrest] at hr
          have hreq : rx ++ t.render ++ rxs = r := by
            injection hr
          have hl2 : xs.length = ts.length := by
            simp at hl
            exact hl
          have hih := ih ts fld sep rxs rf hl2 hrest hv
          show SExpr.renderFields (x :: (xs ++ [fld])) (some (t :: (ts ++ [sep]))) = _
          simp only [SExpr.renderFields, hx, hih, Option.some_bind, Option.bind_some]
          rw [← hreq]
          simp [List.append_assoc]

theorem pySliceNorm_zero (L : Int) (h : 0 ≤ L) : pySliceNorm L 0 = 0 := by
  simp only [pySliceNorm]
  split_ifs <;> omega

theorem pySliceNorm_negone (L : Int) (h : 1 ≤ L) : pySliceNorm L (-1) = L - 1 := by
  simp only [pySliceNorm]
  split_ifs <;> omega

theorem pySliceNorm_len (L : Int) (h : 0 ≤ L) : pySliceNorm L L = L := by
  simp only [pySliceNorm]
  split_ifs <;> omega

theorem surgery_slices (tok : Span) (l : List Char)
    (hraw : tok.raw = l ++ [':']) (hwf : tok.wf) :
    ∃ tokA tokB colonSp,
      Span.slice tok none (some (-1)) = .ok tokA ∧
      Span.slice tok (some (-1)) (some (-1)) = .ok tokB ∧
      Span.slice tok (some (-1)) none = .ok colonSp ∧
      tokA.raw = l ∧ tokB.raw = [] ∧ colonSp.raw = [':'] := by
  have hL : (tok.raw.length : Int) = l.length + 1 := by
    rw [hraw]; push_cast; simp
  have hL1 : (1 : Int) ≤ tok.raw.length := by omega
  have hdropNl : '\n' ∉ tok.raw.drop l.length := by
    rw [hraw, List.drop_left]
    decide
  have hdropAll : '\n' ∉ tok.raw.drop (l.length + 1) := by
    intro hc
    have : tok.raw.length ≤ l.length + 1 := by omega
    rw [List.drop_eq_nil_of_le this] at hc
    exact absurd hc (by simp)
  obtain ⟨pA, _, hA⟩ := spanSlice_ok tok none (some (-1)) 0 l.length hwf
    (by rw [Option.getD_none, pySliceNorm_zero _ (by omega)]; rfl)
    (by rw [Option.getD_some, pySliceNorm_negone _ hL1]; omega)
    (by omega) hdropNl
  obtain ⟨pB, _, hB⟩ := spanSlice_ok tok (some (-1)) (some (-1)) l.length l.length hwf
    (by rw [Option.getD_some, pySliceNorm_negone _ hL1]; omega)
    (by rw [Option.getD_some, pySliceNorm_negone _ hL1]; omega)
    (le_refl _) hdropNl
  obtain ⟨pC, _, hC⟩ := spanSlice_ok tok (some (-1)) none (l.length) (l.length + 1) hwf
    (by rw [Option.getD_some, pySliceNorm_negone _ hL1]; omega)
    (by rw [Option.getD_none, pySliceNorm_len _ (by omega)]; omega)
    (by omega) hdropAll
  refine ⟨_, _, _, hA, hB, hC, ?_, ?_, ?_⟩
  · show (tok.raw.drop 0).take (l.length - 0) = l
    rw [hraw]
    simp [List.take_left]
  · show (tok.raw.drop l.length).take (l.length - l.length) = []
    simp
  · show (tok.raw.drop l.length).take (l.length + 1 - l.length) = [':']
    rw [hraw, List.drop_left]
    simp

theorem keyStep_spec (f : Nat) (s : Inp) (key key2 : SExpr) (colon : TokenSpans)
    (sE : Inp) (rk : List Char)
    (hpm : PreM s) (hpw : PostWS s) (hak : AtomOK key) (hkr : key.render = some rk)
    (h : keyStep f s key = .ok (key2, colon, sE)) :
    sE.text = s.text ∧ PreM sE ∧ s.index ≤ sE.index ∧ PostWS sE ∧
    ∃ rk2, key2.render = some rk2 ∧
      rk2 ++ colon.render = rk ++ subT s.text s.index sE.index := by
  have hcol : parseMapColon f s key = .ok (key2, colon, sE) →
      sE.text = s.text ∧ PreM sE ∧ s.index ≤ sE.index ∧ PostWS sE ∧
      ∃ rk2, key2.render = some rk2 ∧
        rk2 ++ colon.render = rk ++ subT s.text s.index sE.index := by
    intro hm
    obtain ⟨hk, h1, h2, h3, h4, h5⟩ := parseMapColon_spec f s key key2 colon sE hpm hm
    subst hk
    exact ⟨h1, h2, h3, h4, rk, hkr, by rw [h5]⟩
  cases key with
  | atom value span =>
    rw [keyStep] at h
    split at h
    · rename_i hlast
      obtain ⟨tok, space, hsp, htr, hwf⟩ := hak
      subst hsp
      obtain ⟨l, hl⟩ := List.getLast?_eq_some_iff.mp hlast
      have hdl : value.dropLast = l := by rw [hl]; exact List.dropLast_concat ..
      obtain ⟨tokA, tokB, colonSp, hA, hB, hC, hrA, hrB, hrC⟩ :=
        surgery_slices tok l (by rw [htr]; exact hl) hwf
      simp only [exPure_bind, hA, exBind_ok, hB, hC] at h
      have hkey2 : SExpr.atom value.dropLast (some ⟨some tokA, some tokB⟩) = key2 :=
        congrArg Prod.fst (by injection h)
      have h2 := congrArg Prod.snd (show _ = (key2, colon, sE) by injection h)
      have hcolon : (⟨some colonSp, some space⟩ : TokenSpans) = colon :=
        congrArg Prod.fst h2
      have hsE : s = sE := congrArg Prod.snd h2
      subst hkey2; subst hcolon; subst hsE
      refine ⟨rfl, hpm, le_refl _, hpw, tokA.raw ++ tokB.raw, rfl, ?_⟩
      show (tokA.raw ++ tokB.raw) ++ (colonSp.raw ++ space.raw) =
        rk ++ subT s.text s.index s.index
      have hrk : tok.raw ++ space.raw = rk := by
        injection hkr
      rw [subT_self, hrA, hrB, hrC, ← hrk, htr, hl]
      simp
    · exact hcol h
  | str v sp =>
    rw [keyStep] at h
    · exact hcol h
    · intro value span hx
      exact SExpr.noConfusion hx
  | real v sp =>
    rw [keyStep] at h
    · exact hcol h
    · intro value span hx
      exact SExpr.noConfusion hx
  | int v sp =>
    rw [keyStep] at h
    · exact hcol h
    · intro value span hx
      exact SExpr.noConfusion hx
  | rational v sp =>
    rw [keyStep] at h
    · exact hcol h
    · intro value span hx
      exact SExpr.noConfusion hx
  | group a b c d =>
    rw [keyStep] at h
    · exact hcol h
    · intro value span hx
      exact SExpr.noConfusion hx
  | seq a b c d =>
    rw [keyStep] at h
    · exact hcol h
    · intro value span hx
      exact SExpr.noConfusion hx
  | map a b c d =>
    rw [keyStep] at h
    · exact hcol h
    · intro value span hx
      exact SExpr.noConfusion hx

theorem subT_glue (t : List Char) (a b c d e g : Nat)
    (h1 : a ≤ b) (h2 : b ≤ c) (h3 : c ≤ d) (h4 : d ≤ e) (h5 : e ≤ g)
    (hb : b ≤ t.length) (hc : c ≤ t.length) (hd : d ≤ t.length) (he : e ≤ t.length) :
    (subT t a b ++ subT t b c) ++ subT t c d ++ (subT t d e ++ subT t e g) =
      subT t a g := by
  rw [subT_append t a b c h1 h2 hb,
      subT_append t a c d (h1.trans h2) h3 hc,
      subT_append t d e g h4 h5 he,
      subT_append t a d g ((h1.trans h2).trans h3) (h4.trans h5) hd]

theorem parserSpecs_zero : ParserSpecs 0 := by
  refine ⟨?_, ?_, ?_, ?_, ?_, ?_, ?_⟩
  · intro s e sE _ _ h; exact absurd h (by simp [parseOneSexpr])
  · intro s e sE _ h; exact absurd h (by simp [parseGroup])
  · intro s vals seps r vals2 seps2 sE _ _ _ _ h
    exact absurd h (by simp [parseGroupLoop])
  · intro s e sE _ h; exact absurd h (by simp [parseListS])
  · intro s vals seps r vals2 seps2 sE _ _ _ _ h
    exact absurd h (by simp [parseListLoop])
  · intro s e sE _ h; exact absurd h (by simp [parseMap])
  · intro s flds seps r flds2 seps2 sE _ _ _ _ h
    exact absurd h (by simp [parseMapLoop])

theorem oneStep (f : Nat) (hPS : ParserSpecs f) :
    ∀ s e sE, PreM s → PostWS s → parseOneSexpr (f+1) s = .ok (e, sE) →
      POut s.text s.index e sE := by
  intro s e sE hpm hpw h
  rw [parseOneSexpr] at h
  cases hw : skipWhitespace f s with
  | error e2 => rw [hw, exBind_error] at h; exact absurd h (by simp)
  | ok q =>
    rcases q with ⟨sp0, s0⟩
    have hr := skipWS_noop f s (sp0, s0) hpw hw
    have hs0 : s0 = s := by
      have h2 : s0 = s.capture.2 := congrArg Prod.snd hr
      rw [h2]
      exact capture_self hpm.1 hpm.2.1 hpm.2.2.1
    simp only [hw, exBind_ok, hs0] at h
    by_cases h1 : s.current = '('
    · rw [if_pos h1] at h; exact hPS.2.1 s e sE hpm h
    · rw [if_neg h1] at h
      by_cases h2 : s.current = '['
      · rw [if_pos h2] at h; exact hPS.2.2.2.1 s e sE hpm h
      · rw [if_neg h2] at h
        by_cases h3 : s.current = '"'
        · rw [if_pos h3] at h; exact parseString_spec f s e sE hpm h
        · rw [if_neg h3] at h
          by_cases h4 : s.current = '#'
          · rw [if_pos h4] at h; exact parseRawString_spec f s e sE hpm h
          · rw [if_neg h4] at h
            by_cases h5 : s.current = '\x7b'
            · rw [if_pos h5] at h; exact hPS.2.2.2.2.2.1 s e sE hpm h
            · rw [if_neg h5] at h; exact parseAtom_spec f s e sE hpm h

theorem groupStep (f : Nat) (hPS : ParserSpecs f) :
    ∀ s e sE, PreM s → parseGroup (f+1) s = .ok (e, sE) →
      POut s.text s.index e sE := by
  intro s e sE hpm h
  rw [parseGroup] at h
  split at h
  · exact absurd h (by simp)
  · rename_i hbr
    have hb : s.current = '(' := not_not.mp hbr
    have hEOS : s.current ≠ EOSc := by rw [hb]; decide
    have hlt : s.index < s.text.length := current_ne_EOS_lt hEOS
    obtain ⟨t2, n1, n2, n3, mono2, lt2, le2⟩ := next_state s
    have hNi : s.next.index = s.index + 1 := lt2 hlt
    rcases hcap : s.next.capture with ⟨tok, sC⟩
    simp only [hcap] at h
    obtain ⟨c1, c2, c3, c4, c5, c6, c7, c8⟩ := capture_state s.next
    have hp1 : s.next.capture.1 = tok := by rw [hcap]
    have hp2 : s.next.capture.2 = sC := by rw [hcap]
    rw [hp1] at c1
    rw [hp2] at c2 c3 c4 c5 c6 c7 c8
    cases hw : skipWhitespace f sC with
    | error e2 => rw [hw, exBind_error] at h; exact absurd h (by simp)
    | ok q =>
      rcases q with ⟨sp, s2⟩
      simp only [hw, exBind_ok] at h
      have hNlen : s.next.index ≤ s.text.length := by rw [hNi]; omega
      obtain ⟨w1, w2, w3, w4, w5⟩ := skipWS_spec f sC sp s2
        (by rw [c4, c3]) (by rw [c3, c2, t2]; exact hNlen) hw
      have hs2t : s2.text = s.text := w1.trans (c2.trans t2)
      have hs2i : s.next.index ≤ s2.index := by rw [← c3]; exact w3
      cases hpl : parseGroupLoop f s2 [] [] with
      | error e2 => rw [hpl, exBind_error] at h; exact absurd h (by simp)
      | ok trip =>
        rcases trip with ⟨vals, seps, s3⟩
        simp only [hpl, exBind_ok] at h
        obtain ⟨g1, g2, g3, g4, g5, g6⟩ :=
          hPS.2.2.1 s2 [] [] [] vals seps s3 w2 w4 rfl rfl hpl
        have hs3t : s3.text = s.text := g1.trans hs2t
        have hEOS3 : s3.current ≠ EOSc := by rw [g4]; decide
        have hlt3 : s3.index < s3.text.length := current_ne_EOS_lt hEOS3
        obtain ⟨u1, u2, u3, u4, mono4, lt4, le4⟩ := next_state s3
        have hMi : s3.next.index = s3.index + 1 := lt4 hlt3
        rcases hcap2 : s3.next.capture with ⟨ctok, sC2⟩
        simp only [hcap2] at h
        obtain ⟨d1, d2, d3, d4, d5, d6, d7, d8⟩ := capture_state s3.next
        have hq1 : s3.next.capture.1 = ctok := by rw [hcap2]
        have hq2 : s3.next.capture.2 = sC2 := by rw [hcap2]
        rw [hq1] at d1
        rw [hq2] at d2 d3 d4 d5 d6 d7 d8
        cases hw2 : skipWhitespace f sC2 with
        | error e2 => rw [hw2, exBind_error] at h; exact absurd h (by simp)
        | ok q2 =>
          rcases q2 with ⟨csp, s4⟩
          simp only [hw2, exBind_ok] at h
          injection h with h1
          have he : SExpr.group vals (some ⟨some tok, some sp⟩) (some seps)
              (some ⟨some ctok, some csp⟩) = e := congrArg Prod.fst h1
          have hsE : s4 = sE := congrArg Prod.snd h1
          subst he; subst hsE
          have hlt3' : s3.index < s.text.length := by rw [← hs3t]; exact hlt3
          have hMlen : s3.next.index ≤ s.text.length := by rw [hMi]; omega
          obtain ⟨x1, x2, x3, x4, x5⟩ := skipWS_spec f sC2 csp s4
            (by rw [d4, d3]) (by rw [d3, d2, u1, hs3t]; exact hMlen) hw2
          have hs4t : s4.text = s.text := x1.trans (d2.trans (u1.trans hs3t))
          have hs4i : s3.next.index ≤ s4.index := by rw [← d3]; exact x3
          have hs2len : s2.index ≤ s.text.length := by
            rw [← hs2t]; exact w2.2.2.2
          refine ⟨hs4t, x2, by omega, x4, ?_, trivial⟩
          have hRI : SExpr.renderItems vals (some seps) =
              some (subT s.text s2.index s3.index) := by
            rw [g6, hs2t]
            simp
          simp only [SExpr.render, hRI, Option.some_bind]
          show some ((tok.raw ++ sp.raw) ++ subT s.text s2.index s3.index ++
            (ctok.raw ++ csp.raw)) = some (subT s.text s.index s4.index)
          rw [c1, w5, d1, x5, c2, c4, d2, d4, t2, u1, u2, n1, hs3t, hpm.1, g2.1]
          rw [subT_glue s.text s.index s.next.index s2.index s3.index s3.next.index
            s4.index mono2 hs2i g3 mono4 hs4i hNlen hs2len (le_of_lt hlt3') hMlen]

theorem groupLoopStep (f : Nat) (hPS : ParserSpecs f) :
    ∀ s vals seps r vals2 seps2 sE, PreM s → PostWS s →
      vals.length = seps.length →
      SExpr.renderItems vals (some seps) = some r →
      parseGroupLoop (f+1) s vals seps = .ok (vals2, seps2, sE) →
      sE.text = s.text ∧ PreM sE ∧ s.index ≤ sE.index ∧ sE.current = ')' ∧
      vals2.length = seps2.length ∧
      SExpr.renderItems vals2 (some seps2) =
        some (r ++ subT s.text s.index sE.index) := by
  intro s vals seps r vals2 seps2 sE hpm hpw hlen hri h
  rw [parseGroupLoop] at h
  split at h
  · rename_i hcur
    injection h with h1
    have hv : vals = vals2 := congrArg Prod.fst h1
    have h2 := congrArg Prod.snd h1
    have hsp : seps = seps2 := congrArg Prod.fst h2
    have hsE : s = sE := congrArg Prod.snd h2
    subst hv; subst hsp; subst hsE
    exact ⟨rfl, hpm, le_refl _, hcur, hlen,
      by rw [subT_self, List.append_nil]; exact hri⟩
  · split at h
    · exact absurd h (by simp)
    · cases hone : parseOneSexpr f s with
      | error e2 => rw [hone, exBind_error] at h; exact absurd h (by simp)
      | ok p =>
        rcases p with ⟨v, s1⟩
        simp only [hone, exBind_ok] at h
        obtain ⟨o1, o2, o3, o4, o5, o6⟩ := hPS.1 s v s1 hpm hpw hone
        obtain ⟨k1, k2, k3, k4⟩ := commaSkip_state s1 o2.2.2.2
        generalize hg : (if s1.current = ',' then s1.next else s1) = sB at h k1 k2 k3 k4
        rcases hcap : sB.capture with ⟨tok, sC⟩
        simp only [hcap] at h
        obtain ⟨c1, c2, c3, c4, c5, c6, c7, c8⟩ := capture_state sB
        have hp1 : sB.capture.1 = tok := by rw [hcap]
        have hp2 : sB.capture.2 = sC := by rw [hcap]
        rw [hp1] at c1
        rw [hp2] at c2 c3 c4 c5 c6 c7 c8
        cases hw : skipWhitespace f sC with
        | error e2 => rw [hw, exBind_error] at h; exact absurd h (by simp)
        | ok q =>
          rcases q with ⟨sp, s3⟩
          simp only [hw, exBind_ok] at h
          obtain ⟨w1, w2, w3, w4, w5⟩ := skipWS_spec f sC sp s3
            (by rw [c4, c3]) (by rw [c3, c2, k1]; exact k4) hw
          have hsBt : sB.text = s.text := k1.trans o1
          have hs3t : s3.text = s.text := w1.trans (c2.trans hsBt)
          have hsBi : sB.index ≤ s3.index := by rw [← c3]; exact w3
          have hsBlen : sB.index ≤ s.text.length := by rw [← o1]; exact k4
          have hs1len : s1.index ≤ s.text.length := by rw [← o1]; exact o2.2.2.2
          have hsep : (⟨some tok, some sp⟩ : TokenSpans).render =
              subT s.text s1.index s3.index := by
            show tok.raw ++ sp.raw = _
            rw [c1, w5, c4, c2, k1, k2, o1, o2.1]
            exact subT_append s.text s1.index sB.index s3.index k3 hsBi hsBlen
          have hri2 : SExpr.renderItems (vals ++ [v])
              (some (seps ++ [⟨some tok, some sp⟩])) =
              some (r ++ subT s.text s.index s3.index) := by
            rw [renderItems_snoc vals seps v _ r _ hlen hri o5, hsep]
            rw [subT_append s.text s.index s1.index s3.index o3 (k3.trans hsBi) hs1len]
          obtain ⟨e1, e2, e3, e4, e5, e6⟩ := hPS.2.2.1 s3 (vals ++ [v])
            (seps ++ [⟨some tok, some sp⟩]) (r ++ subT s.text s.index s3.index)
            vals2 seps2 sE w2 w4 (by simp [hlen]) hri2 h
          have hs3len : s3.index ≤ s.text.length := by
            rw [← hs3t]; exact w2.2.2.2
          refine ⟨e1.trans hs3t, e2, by omega, e4, e5, ?_⟩
          rw [e6, hs3t, List.append_assoc,
            subT_append s.text s.index s3.index sE.index (by omega) e3 hs3len]

theorem listStep (f : Nat) (hPS : ParserSpecs f) :
    ∀ s e sE, PreM s → parseListS (f+1) s = .ok (e, sE) →
      POut s.text s.index e sE := by
  intro s e sE hpm h
  rw [parseListS] at h
  split at h
  · exact absurd h (by simp)
  · rename_i hbr
    have hb : s.current = '[' := not_not.mp hbr
    have hEOS : s.current ≠ EOSc := by rw [hb]; decide
    have hlt : s.index < s.text.length := current_ne_EOS_lt hEOS
    obtain ⟨t2, n1, n2, n3, mono2, lt2, le2⟩ := next_state s
    have hNi : s.next.index = s.index + 1 := lt2 hlt
    rcases hcap : s.next.capture with ⟨tok, sC⟩
    simp only [hcap] at h
    obtain ⟨c1, c2, c3, c4, c5, c6, c7, c8⟩ := capture_state s.next
    have hp1 : s.next.capture.1 = tok := by rw [hcap]
    have hp2 : s.next.capture.2 = sC := by rw [hcap]
    rw [hp1] at c1
    rw [hp2] at c2 c3 c4 c5 c6 c7 c8
    cases hw : skipWhitespace f sC with
    | error e2 => rw [hw, exBind_error] at h; exact absurd h (by simp)
    | ok q =>
      rcases q with ⟨sp, s2⟩
      simp only [hw, exBind_ok] at h
      have hNlen : s.next.index ≤ s.text.length := by rw [hNi]; omega
      obtain ⟨w1, w2, w3, w4, w5⟩ := skipWS_spec f sC sp s2
        (by rw [c4, c3]) (by rw [c3, c2, t2]; exact hNlen) hw
      have hs2t : s2.text = s.text := w1.trans (c2.trans t2)
      have hs2i : s.next.index ≤ s2.index := by rw [← c3]; exact w3
      cases hpl : parseListLoop f s2 [] [] with
      | error e2 => rw [hpl, exBind_error] at h; exact absurd h (by simp)
      | ok trip =>
        rcases trip with ⟨vals, seps, s3⟩
        simp only [hpl, exBind_ok] at h
        obtain ⟨g1, g2, g3, g4, g5, g6⟩ :=
          hPS.2.2.2.2.1 s2 [] [] [] vals seps s3 w2 w4 rfl rfl hpl
        have hs3t : s3.text = s.text := g1.trans hs2t
        have hEOS3 : s3.current ≠ EOSc := by rw [g4]; decide
        have hlt3 : s3.index < s3.text.length := current_ne_EOS_lt hEOS3
        obtain ⟨u1, u2, u3, u4, mono4, lt4, le4⟩ := next_state s3
        have hMi : s3.next.index = s3.index + 1 := lt4 hlt3
        rcases hcap2 : s3.next.capture with ⟨ctok, sC2⟩
        simp only [hcap2] at h
        obtain ⟨d1, d2, d3, d4, d5, d6, d7, d8⟩ := capture_state s3.next
        have hq1 : s3.next.capture.1 = ctok := by rw [hcap2]
        have hq2 : s3.next.capture.2 = sC2 := by rw [hcap2]
        rw [hq1] at d1
        rw [hq2] at d2 d3 d4 d5 d6 d7 d8
        cases hw2 : skipWhitespace f sC2 with
        | error e2 => rw [hw2, exBind_error] at h; exact absurd h (by simp)
        | ok q2 =>
          rcases q2 with ⟨csp, s4⟩
          simp only [hw2, exBind_ok] at h
          injection h with h1
          have he : SExpr.seq vals (some ⟨some tok, some sp⟩) (some seps)
              (some ⟨some ctok, some csp⟩) = e := congrArg Prod.fst h1
          have hsE : s4 = sE := congrArg Prod.snd h1
          subst he; subst hsE
          have hlt3' : s3.index < s.text.length := by rw [← hs3t]; exact hlt3
          have hMlen : s3.next.index ≤ s.text.length := by rw [hMi]; omega
          obtain ⟨x1, x2, x3, x4, x5⟩ := skipWS_spec f sC2 csp s4
            (by rw [d4, d3]) (by rw [d3, d2, u1, hs3t]; exact hMlen) hw2
          have hs4t : s4.text = s.text := x1.trans (d2.trans (u1.trans hs3t))
          have hs4i : s3.next.index ≤ s4.index := by rw [← d3]; exact x3
          have hs2len : s2.index ≤ s.text.length := by
            rw [← hs2t]; exact w2.2.2.2
          refine ⟨hs4t, x2, by omega, x4, ?_, trivial⟩
          have hRI : SExpr.renderItems vals (some seps) =
              some (subT s.text s2.index s3.index) := by
            rw [g6, hs2t]
            simp
          simp only [SExpr.render, hRI, Option.some_bind]
          show some ((tok.raw ++ sp.raw) ++ subT s.text s2.index s3.index ++
            (ctok.raw ++ csp.raw)) = some (subT s.text s.index s4.index)
          rw [c1, w5, d1, x5, c2, c4, d2, d4, t2, u1, u2, n1, hs3t, hpm.1, g2.1]
          rw [subT_glue s.text s.index s.next.index s2.index s3.index s3.next.index
            s4.index mono2 hs2i g3 mono4 hs4i hNlen hs2len (le_of_lt hlt3') hMlen]


theorem listLoopStep (f : Nat) (hPS : ParserSpecs f) :
    ∀ s vals seps r vals2 seps2 sE, PreM s → PostWS s →
      vals.length = seps.length →
      SExpr.renderItems vals (some seps) = some r →
      parseListLoop (f+1) s vals seps = .ok (vals2, seps2, sE) →
      sE.text = s.text ∧ PreM sE ∧ s.index ≤ sE.index ∧ sE.current = ']' ∧
      vals2.length = seps2.length ∧
      SExpr.renderItems vals2 (some seps2) =
        some (r ++ subT s.text s.index sE.index) := by
  intro s vals seps r vals2 seps2 sE hpm hpw hlen hri h
  rw [parseListLoop] at h
  split at h
  · rename_i hcur
    injection h with h1
    have hv : vals = vals2 := congrArg Prod.fst h1
    have h2 := congrArg Prod.snd h1
    have hsp : seps = seps2 := congrArg Prod.fst h2
    have hsE : s = sE := congrArg Prod.snd h2
    subst hv; subst hsp; subst hsE
    exact ⟨rfl, hpm, le_refl _, hcur, hlen,
      by rw [subT_self, List.append_nil]; exact hri⟩
  · split at h
    · exact absurd h (by simp)
    · cases hone : parseOneSexpr f s with
      | error e2 => rw [hone, exBind_error] at h; exact absurd h (by simp)
      | ok p =>
        rcases p with ⟨v, s1⟩
        simp only [hone, exBind_ok] at h
        obtain ⟨o1, o2, o3, o4, o5, o6⟩ := hPS.1 s v s1 hpm hpw hone
        obtain ⟨k1, k2, k3, k4⟩ := commaSkip_state s1 o2.2.2.2
        generalize hg : (if s1.current = ',' then s1.next else s1) = sB at h k1 k2 k3 k4
        rcases hcap : sB.capture with ⟨tok, sC⟩
        simp only [hcap] at h
        obtain ⟨c1, c2, c3, c4, c5, c6, c7, c8⟩ := capture_state sB
        have hp1 : sB.capture.1 = tok := by rw [hcap]
        have hp2 : sB.capture.2 = sC := by rw [hcap]
        rw [hp1] at c1
        rw [hp2] at c2 c3 c4 c5 c6 c7 c8
        cases hw : skipWhitespace f sC with
        | error e2 => rw [hw, exBind_error] at h; exact absurd h (by simp)
        | ok q =>
          rcases q with ⟨sp, s3⟩
          simp only [hw, exBind_ok] at h
          obtain ⟨w1, w2, w3, w4, w5⟩ := skipWS_spec f sC sp s3
            (by rw [c4, c3]) (by rw [c3, c2, k1]; exact k4) hw
          have hsBt : sB.text = s.text := k1.trans o1
          have hs3t : s3.text = s.text := w1.trans (c2.trans hsBt)
          have hsBi : sB.index ≤ s3.index := by rw [← c3]; exact w3
          have hsBlen : sB.index ≤ s.text.length := by rw [← o1]; exact k4
          have hs1len : s1.index ≤ s.text.length := by rw [← o1]; exact o2.2.2.2
          have hsep : (⟨some tok, some sp⟩ : TokenSpans).render =
              subT s.text s1.index s3.index := by
            show tok.raw ++ sp.raw = _
            rw [c1, w5, c4, c2, k1, k2, o1, o2.1]
            exact subT_append s.text s1.index sB.index s3.index k3 hsBi hsBlen
          have hri2 : SExpr.renderItems (vals ++ [v])
              (some (seps ++ [⟨some tok, some sp⟩])) =
              some (r ++ subT s.text s.index s3.index) := by
            rw [renderItems_snoc vals seps v _ r _ hlen hri o5, hsep]
            rw [subT_append s.text s.index s1.index s3.index o3 (k3.trans hsBi) hs1len]
          obtain ⟨e1, e2, e3, e4, e5, e6⟩ := hPS.2.2.2.2.1 s3 (vals ++ [v])
            (seps ++ [⟨some tok, some sp⟩]) (r ++ subT s.text s.index s3.index)
            vals2 seps2 sE w2 w4 (by simp [hlen]) hri2 h
          have hs3len : s3.index ≤ s.text.length := by
            rw [← hs3t]; exact w2.2.2.2
          refine ⟨e1.trans hs3t, e2, by omega, e4, e5, ?_⟩
          rw [e6, hs3t, List.append_assoc,
            subT_append s.text s.index s3.index sE.index (by omega) e3 hs3len]

theorem mapStep (f : Nat) (hPS : ParserSpecs f) :
    ∀ s e sE, PreM s → parseMap (f+1) s = .ok (e, sE) →
      POut s.text s.index e sE := by
  intro s e sE hpm h
  rw [parseMap] at h
  split at h
  · exact absurd h (by simp)
  · rename_i hbr
    have hb : s.current = '\x7b' := not_not.mp hbr
    have hEOS : s.current ≠ EOSc := by rw [hb]; decide
    have hlt : s.index < s.text.length := current_ne_EOS_lt hEOS
    obtain ⟨t2, n1, n2, n3, mono2, lt2, le2⟩ := next_state s
    have hNi : s.next.index = s.index + 1 := lt2 hlt
    rcases hcap : s.next.capture with ⟨tok, sC⟩
    simp only [hcap] at h
    obtain ⟨c1, c2, c3, c4, c5, c6, c7, c8⟩ := capture_state s.next
    have hp1 : s.next.capture.1 = tok := by rw [hcap]
    have hp2 : s.next.capture.2 = sC := by rw [hcap]
    rw [hp1] at c1
    rw [hp2] at c2 c3 c4 c5 c6 c7 c8
    cases hw : skipWhitespace f sC with
    | error e2 => rw [hw, exBind_error] at h; exact absurd h (by simp)
    | ok q =>
      rcases q with ⟨sp, s2⟩
      simp only [hw, exBind_ok] at h
      have hNlen : s.next.index ≤ s.text.length := by rw [hNi]; omega
      obtain ⟨w1, w2, w3, w4, w5⟩ := skipWS_spec f sC sp s2
        (by rw [c4, c3]) (by rw [c3, c2, t2]; exact hNlen) hw
      have hs2t : s2.text = s.text := w1.trans (c2.trans t2)
      have hs2i : s.next.index ≤ s2.index := by rw [← c3]; exact w3
      cases hpl : parseMapLoop f s2 [] [] with
      | error e2 => rw [hpl, exBind_error] at h; exact absurd h (by simp)
      | ok trip =>
        rcases trip with ⟨vals, seps, s3⟩
        simp only [hpl, exBind_ok] at h
        obtain ⟨g1, g2, g3, g4, g5, g6⟩ :=
          hPS.2.2.2.2.2.2 s2 [] [] [] vals seps s3 w2 w4 rfl rfl hpl
        have hs3t : s3.text = s.text := g1.trans hs2t
        have hEOS3 : s3.current ≠ EOSc := by rw [g4]; decide
        have hlt3 : s3.index < s3.text.length := current_ne_EOS_lt hEOS3
        obtain ⟨u1, u2, u3, u4, mono4, lt4, le4⟩ := next_state s3
        have hMi : s3.next.index = s3.index + 1 := lt4 hlt3
        rcases hcap2 : s3.next.capture with ⟨ctok, sC2⟩
        simp only [hcap2] at h
        obtain ⟨d1, d2, d3, d4, d5, d6, d7, d8⟩ := capture_state s3.next
        have hq1 : s3.next.capture.1 = ctok := by rw [hcap2]
        have hq2 : s3.next.capture.2 = sC2 := by rw [hcap2]
        rw [hq1] at d1
        rw [hq2] at d2 d3 d4 d5 d6 d7 d8
        cases hw2 : skipWhitespace f sC2 with
        | error e2 => rw [hw2, exBind_error] at h; exact absurd h (by simp)
        | ok q2 =>
          rcases q2 with ⟨csp, s4⟩
          simp only [hw2, exBind_ok] at h
          injection h with h1
          have he : SExpr.map vals (some ⟨some tok, some sp⟩) (some seps)
              (some ⟨some ctok, some csp⟩) = e := congrArg Prod.fst h1
          have hsE : s4 = sE := congrArg Prod.snd h1
          subst he; subst hsE
          have hlt3' : s3.index < s.text.length := by rw [← hs3t]; exact hlt3
          have hMlen : s3.next.index ≤ s.text.length := by rw [hMi]; omega
          obtain ⟨x1, x2, x3, x4, x5⟩ := skipWS_spec f sC2 csp s4
            (by rw [d4, d3]) (by rw [d3, d2, u1, hs3t]; exact hMlen) hw2
          have hs4t : s4.text = s.text := x1.trans (d2.trans (u1.trans hs3t))
          have hs4i : s3.next.index ≤ s4.index := by rw [← d3]; exact x3
          have hs2len : s2.index ≤ s.text.length := by
            rw [← hs2t]; exact w2.2.2.2
          refine ⟨hs4t, x2, by omega, x4, ?_, trivial⟩
          have hRI : SExpr.renderFields vals (some seps) =
              some (subT s.text s2.index s3.index) := by
            rw [g6, hs2t]
            simp
          simp only [SExpr.render, hRI, Option.some_bind]
          show some ((tok.raw ++ sp.raw) ++ subT s.text s2.index s3.index ++
            (ctok.raw ++ csp.raw)) = some (subT s.text s.index s4.index)
          rw [c1, w5, d1, x5, c2, c4, d2, d4, t2, u1, u2, n1, hs3t, hpm.1, g2.1]
          rw [subT_glue s.text s.index s.next.index s2.index s3.index s3.next.index
            s4.index mono2 hs2i g3 mono4 hs4i hNlen hs2len (le_of_lt hlt3') hMlen]


theorem mapLoopStep (f : Nat) (hPS : ParserSpecs f) :
    ∀ s flds seps r flds2 seps2 sE, PreM s → PostWS s →
      flds.length = seps.length →
      SExpr.renderFields flds (some seps) = some r →
      parseMapLoop (f+1) s flds seps = .ok (flds2, seps2, sE) →
      sE.text = s.text ∧ PreM sE ∧ s.index ≤ sE.index ∧ sE.current = '\x7d' ∧
      flds2.length = seps2.length ∧
      SExpr.renderFields flds2 (some seps2) =
        some (r ++ subT s.text s.index sE.index) := by
  intro s flds seps r flds2 seps2 sE hpm hpw hlen hri h
  rw [parseMapLoop] at h
  split at h
  · rename_i hcur
    injection h with h1
    have hv : flds = flds2 := congrArg Prod.fst h1
    have h2 := congrArg Prod.snd h1
    have hsp : seps = seps2 := congrArg Prod.fst h2
    have hsE : s = sE := congrArg Prod.snd h2
    subst hv; subst hsp; subst hsE
    exact ⟨rfl, hpm, le_refl _, hcur, hlen,
      by rw [subT_self, List.append_nil]; exact hri⟩
  · split at h
    · exact absurd h (by simp)
    · cases hone : parseOneSexpr f s with
      | error e2 => rw [hone, exBind_error] at h; exact absurd h (by simp)
      | ok p =>
        rcases p with ⟨key, s1⟩
        simp only [hone, exBind_ok] at h
        obtain ⟨o1, o2, o3, o4, o5, o6⟩ := hPS.1 s key s1 hpm hpw hone
        cases hks : keyStep f s1 key with
        | error e2 => rw [hks, exBind_error] at h; exact absurd h (by simp)
        | ok trip2 =>
          rcases trip2 with ⟨key2, colon, s1b⟩
          simp only [hks, exBind_ok] at h
          obtain ⟨y1, y2, y3, y4, rk2, y5, y6⟩ :=
            keyStep_spec f s1 key key2 colon s1b (subT s.text s.index s1.index)
              o2 o4 o6 o5 hks
          cases hval : parseOneSexpr f s1b with
          | error e2 => rw [hval, exBind_error] at h; exact absurd h (by simp)
          | ok pv =>
            rcases pv with ⟨value, s1c⟩
            simp only [hval, exBind_ok] at h
            obtain ⟨z1, z2, z3, z4, z5, z6⟩ := hPS.1 s1b value s1c y2 y4 hval
            have hs1bt : s1b.text = s.text := y1.trans o1
            have hs1ct : s1c.text = s.text := z1.trans hs1bt
            have hs1len : s1.index ≤ s.text.length := by rw [← o1]; exact o2.2.2.2
            have hs1blen : s1b.index ≤ s.text.length := by
              rw [← hs1bt]; exact y2.2.2.2
            have hs1clen : s1c.index ≤ s.text.length := by
              rw [← hs1ct]; exact z2.2.2.2
            have hfr : (SMapField.mk key2 value (some colon)).render =
                some (subT s.text s.index s1c.index) := by
              simp only [SMapField.render, y5, z5, Option.some_bind]
              show some ((rk2 ++ colon.render) ++ subT s1b.text s1b.index s1c.index) =
                some (subT s.text s.index s1c.index)
              rw [y6, o1, hs1bt]
              rw [subT_append s.text s.index s1.index s1b.index o3 y3 hs1len]
              rw [subT_append s.text s.index s1b.index s1c.index (o3.trans y3) z3
                hs1blen]
            obtain ⟨k1, k2, k3, k4⟩ := commaSkip_state s1c z2.2.2.2
            generalize hg : (if s1c.current = ',' then s1c.next else s1c) = sB
              at h k1 k2 k3 k4
            rcases hcap : sB.capture with ⟨tok, sC⟩
            simp only [hcap] at h
            obtain ⟨c1, c2, c3, c4, c5, c6, c7, c8⟩ := capture_state sB
            have hp1 : sB.capture.1 = tok := by rw [hcap]
            have hp2 : sB.capture.2 = sC := by rw [hcap]
            rw [hp1] at c1
            rw [hp2] at c2 c3 c4 c5 c6 c7 c8
            cases hw : skipWhitespace f sC with
            | error e2 => rw [hw, exBind_error] at h; exact absurd h (by simp)
            | ok q =>
              rcases q with ⟨sp, s3⟩
              simp only [hw, exBind_ok] at h
              obtain ⟨w1, w2, w3, w4, w5⟩ := skipWS_spec f sC sp s3
                (by rw [c4, c3]) (by rw [c3, c2, k1]; exact k4) hw
              have hsBt : sB.text = s.text := k1.trans hs1ct
              have hs3t : s3.text = s.text := w1.trans (c2.trans hsBt)
              have hsBi : sB.index ≤ s3.index := by rw [← c3]; exact w3
              have hsBlen : sB.index ≤ s.text.length := by rw [← hs1ct]; exact k4
              have hsep : (⟨some tok, some sp⟩ : TokenSpans).render =
                  subT s.text s1c.index s3.index := by
                show tok.raw ++ sp.raw = _
                rw [c1, w5, c4, c2, k1, k2, hs1ct, z2.1]
                exact subT_append s.text s1c.index sB.index s3.index k3 hsBi hsBlen
              have hri2 : SExpr.renderFields
                  (flds ++ [SMapField.mk key2 value (some colon)])
                  (some (seps ++ [⟨some tok, some sp⟩])) =
                  some (r ++ subT s.text s.index s3.index) := by
                rw [renderFields_snoc flds seps _ _ r _ hlen hri hfr, hsep]
                rw [subT_append s.text s.index s1c.index s3.index (by omega)
                  (k3.trans hsBi) hs1clen]
              obtain ⟨e1, e2, e3, e4, e5, e6⟩ := hPS.2.2.2.2.2.2 s3
                (flds ++ [SMapField.mk key2 value (some colon)])
                (seps ++ [⟨some tok, some sp⟩])
                (r ++ subT s.text s.index s3.index) flds2 seps2 sE w2 w4
                (by simp [hlen]) hri2 h
              have hs3len : s3.index ≤ s.text.length := by
                rw [← hs3t]; exact w2.2.2.2
              refine ⟨e1.trans hs3t, e2, by omega, e4, e5, ?_⟩
              rw [e6, hs3t, List.append_assoc,
                subT_append s.text s.index s3.index sE.index (by omega) e3 hs3len]

theorem parserSpecs : ∀ f, ParserSpecs f := by
  intro f
  induction f with
  | zero => exact parserSpecs_zero
  | succ f ih =>
    exact ⟨oneStep f ih, groupStep f ih, groupLoopStep f ih, listStep f ih,
      listLoopStep f ih, mapStep f ih, mapLoopStep f ih⟩

theorem mapM_render_snoc (acc : List SExpr) (rs : List (List Char)) (e : SExpr)
    (re : List Char) (hm : acc.mapM SExpr.render = some rs)
    (he : e.render = some re) :
    (acc ++ [e]).mapM SExpr.render = some (rs ++ [re]) := by
  have h1 : [e].mapM SExpr.render = some [re] := by
    simp [List.mapM, List.mapM.loop, he]
  rw [List.mapM_append, hm, h1]
  rfl

theorem parseTopLoop_spec : ∀ (f : Nat) (s : Inp) (acc : List SExpr)
    (rs : List (List Char)) (acc2 : List SExpr) (sE : Inp),
    PreM s → PostWS s →
    acc.mapM SExpr.render = some rs →
    parseTopLoop f s acc = .ok (acc2, sE) →
    sE.text = s.text ∧ s.index ≤ sE.index ∧ sE.index ≤ s.text.length ∧
    sE.current = EOSc ∧
    ∃ rs2, acc2.mapM SExpr.render = some rs2 ∧
      rs2.flatten = rs.flatten ++ subT s.text s.index sE.index := by
  intro f
  induction f with
  | zero => intro s acc rs acc2 sE _ _ _ h; exact absurd h (by simp [parseTopLoop])
  | succ f ih =>
    intro s acc rs acc2 sE hpm hpw hm h
    rw [parseTopLoop] at h
    split at h
    · rename_i hcur
      injection h with h1
      have hv : acc = acc2 := congrArg Prod.fst h1
      have hsE : s = sE := congrArg Prod.snd h1
      subst hv; subst hsE
      exact ⟨rfl, le_refl _, hpm.2.2.2, hcur, rs, hm,
        by rw [subT_self, List.append_nil]⟩
    · cases hone : parseOneSexpr f s with
      | error e2 => rw [hone, exBind_error] at h; exact absurd h (by simp)
      | ok p =>
        rcases p with ⟨e, s1⟩
        simp only [hone, exBind_ok] at h
        obtain ⟨o1, o2, o3, o4, o5, o6⟩ := (parserSpecs f).1 s e s1 hpm hpw hone
        have hm2 := mapM_render_snoc acc rs e _ hm o5
        obtain ⟨e1, e2, e3, e4, rs2, e5, e6⟩ := ih s1 (acc ++ [e]) _ acc2 sE
          o2 o4 hm2 h
        have hs1len : s1.index ≤ s.text.length := by rw [← o1]; exact o2.2.2.2
        have hsElen : sE.index ≤ s.text.length := by rw [← o1]; exact e3
        refine ⟨e1.trans o1, by omega, hsElen, e4, rs2, e5, ?_⟩
        rw [e6, o1, List.flatten_append, List.flatten_cons, List.flatten_nil,
          List.append_nil, List.append_assoc]
        rw [subT_append s.text s.index s1.index sE.index o3 e2 hs1len]

theorem sexprFuel_roundtrip (f : Nat) (T : List Char) (d : SDoc) (hT : EOSc ∉ T)
    (h : sexprFuel f T false = .ok d) : d.render = some T := by
  rw [sexprFuel] at h
  cases hw : skipWhitespace f (Inp.ofText T) with
  | error e2 => rw [hw, exBind_error] at h; exact absurd h (by simp)
  | ok q =>
    rcases q with ⟨leading, s1⟩
    simp only [hw, exBind_ok] at h
    obtain ⟨w1, w2, w3, w4, w5⟩ := skipWS_spec f (Inp.ofText T) leading s1
      (le_refl _) (Nat.zero_le _) hw
    have hs1T : s1.text = T := w1
    cases htl : parseTopLoop f s1 [] with
    | error e2 => rw [htl, exBind_error] at h; exact absurd h (by simp)
    | ok q2 =>
      rcases q2 with ⟨top, sE⟩
      simp only [htl, exBind_ok] at h
      obtain ⟨t1, t2, t3, t4, rs2, t5, t6⟩ :=
        parseTopLoop_spec f s1 [] [] top sE w2 w4 rfl htl
      simp only [List.flatten_nil, List.nil_append] at t6
      have hd : SDoc.mk top (some leading) = d := by
        injection h
      subst hd
      have hsET : sE.text = T := t1.trans hs1T
      have hsElen : sE.index ≤ T.length := by rw [← hs1T]; exact t3
      have hiE : sE.index = T.length := by
        by_contra hne
        have hlt : sE.index < sE.text.length := by
          rw [hsET]
          exact lt_of_le_of_ne hsElen hne
        have hc := current_get hlt
        rw [t4] at hc
        have hmem : EOSc ∈ T := by
          rw [← hsET]
          rw [hc]
          exact List.get_mem sE.text sE.index hlt
        exact hT hmem
      have hs1len : s1.index ≤ T.length := by rw [← hs1T]; exact w2.2.2.2
      simp only [SDoc.render, t5, Option.some_bind]
      show some (leading.raw ++ rs2.flatten) = some T
      rw [w5, t6, hs1T]
      show some (subT T 0 s1.index ++ subT T s1.index sE.index) = some T
      rw [subT_append T 0 s1.index sE.index (Nat.zero_le _) t2 hs1len, hiE, subT_all]

/-- C1: for every input text free of the NUL character that parses
successfully with trivia retained (`no_spans = false`), rendering the
resulting document reproduces the input exactly, character for character. -/
theorem claim_C1_round_trip (T : List Char) (d : SDoc) (hT : EOSc ∉ T)
    (h : sexpr T false = .ok d) : d.render = some T :=
  sexprFuel_roundtrip (defaultFuel T) T d hT h

/-- A text containing NUL parses successfully yet renders to something else:
NUL is the end-of-stream sentinel, so `"\x00"` parses to an empty document
that renders as the empty string. -/
theorem claim_C1_counterexample :
    ∃ d, sexpr [EOSc] false = .ok d ∧ d.render ≠ some [EOSc] := by
  refine ⟨⟨[], some ⟨⟨1, 1, 0⟩, ⟨1, 1, 0⟩, []⟩⟩, by rfl, by decide⟩

/-- Witness: the round-trip theorem applied to the concrete input `"a"`. -/
theorem claim_C1_witness :
    EOSc ∉ ['a'] ∧
    ∃ d, sexpr ['a'] false = .ok d ∧ d.render = some ['a'] := by
  have hpar : sexpr ['a'] false = .ok ⟨[SExpr.atom ['a']
      (some ⟨some ⟨⟨1, 1, 0⟩, ⟨1, 2, 1⟩, ['a']⟩, some ⟨⟨1, 2, 1⟩, ⟨1, 2, 1⟩, []⟩⟩)],
      some ⟨⟨1, 1, 0⟩, ⟨1, 1, 0⟩, []⟩⟩ := by rfl
  exact ⟨by decide, _, hpar, claim_C1_round_trip ['a'] _ (by decide) hpar⟩

end Mu

